import Mathlib

/-!
Verification of the Connect4AI repository: a shallow embedding, in Lean 4, of
the bitboard game engine (`src/game_manager.c`) and of the Monte-Carlo tree
search engine (`src/mcts.c`), together with proofs about the embedded code.

Machine integers are modelled as follows: `grid_t` (a 64-bit integer used as a
bit set; the code only ever sets bits 0..62, so its value never reaches the
sign bit) is modelled as `ℕ`; `int8_t` return codes, player ids and column
indices are modelled as `ℤ`; array indices are `Fin 7`.  Fallible allocation
is modelled with `Option`.  Where the C code draws from `random()`, the
embedding consumes an explicit list of pseudo-random values.
-/

namespace Connect4

/-- Constant from game_manager.c line 6: `TURN_BIT = BIT_ONE<<62`. -/
def TURN_BIT : ℕ := 2 ^ 62

/-- Constant from game_manager.c line 7: `WIN_BIT = BIT_ONE<<61`. -/
def WIN_BIT : ℕ := 2 ^ 61

/-- Value of the C expression `~TURN_BIT` reinterpreted as the unsigned 64-bit
pattern it denotes on a two's-complement machine: all bits of a 64-bit word
except bit 62. -/
def NOT_TURN_BIT : ℕ := 2 ^ 64 - 1 - 2 ^ 62

/-- Macro PLAYER_A from game_manager.h. -/
def PLAYER_A : ℤ := 0

/-- Macro PLAYER_B from game_manager.h. -/
def PLAYER_B : ℤ := 1

/-- Macro DRAW from game_manager.h. -/
def DRAW : ℤ := 2

/-- Macro ARG_ERROR from game_manager.h. -/
def ARG_ERROR : ℤ := -64

/-- Macro MEM_ERROR from game_manager.h. -/
def MEM_ERROR : ℤ := -63

/-- The struct `game` of game_manager.h: one bit-packed grid per player plus a
7-element column-occupancy array.  `ROW_LENGTH = 7`, `COL_HEIGHT = 6`. -/
structure Game where
  gridA : ℕ
  gridB : ℕ
  cols_occupation : Fin 7 → ℕ
deriving DecidableEq

/-- Function compute_offset of game_manager.c (lines 39-41):
`(1+row)*ROW_LENGTH - col - 1`. -/
def compute_offset (col row : ℤ) : ℤ := (1 + row) * 7 - col - 1

/-- Bounds-guarded read of `game->cols_occupation[col]` for an `ℤ` index (the
C code only performs this access with `col` already checked to be in
`[0, 7)`; outside that range the model returns 0). -/
def occZ (game : Game) (col : ℤ) : ℤ :=
  if h : 0 ≤ col ∧ col < 7 then game.cols_occupation ⟨col.toNat, by omega⟩ else 0

/-- Loop body shared by the horizontal and the two diagonal checks of
makes_new_connect4: walk the scan line, incrementing a consecutive counter on
a set bit, resetting it on a clear bit, and returning 1 (true) as soon as the
counter reaches 4. -/
def runScan : List Bool → ℕ → Bool
  | [], _ => false
  | b :: rest, cnt =>
      let cnt' := if b then cnt + 1 else 0
      if 4 ≤ cnt' then true else runScan rest cnt'

/-- Loop body of the vertical check of makes_new_connect4: count consecutive
set bits from the head of the scan line, stopping at the first clear bit
(the C loop breaks there). -/
def breakScan : List Bool → ℕ
  | [] => 0
  | b :: rest => if b then breakScan rest + 1 else 0

/-- Iteration space of the vertical-check loop of makes_new_connect4 (lines
60-63): offsets `init, init-7, init-14, ...` while `offset >= 0`.  The `fuel`
argument only bounds the number of iterations so that the recursion is
structural; every `int8_t` start offset (at most 127) exhausts the guard
within 19 iterations, so fuel 42 never alters the produced list. -/
def downOffsetsAux : ℕ → ℤ → List ℤ
  | 0, _ => []
  | fuel + 1, o => if 0 ≤ o then o :: downOffsetsAux fuel (o - 7) else []

/-- The vertical-check iteration space with enough fuel for any int8 offset. -/
def downOffsets (o : ℤ) : List ℤ := downOffsetsAux 42 o

/-- Iteration space of the up-right diagonal loop of makes_new_connect4
(lines 85-90): offsets stepping by `ROW_LENGTH-1 = 6` and columns stepping by
1, while `offset < ROW_LENGTH*COL_HEIGHT` and `curr_col < ROW_LENGTH`.  As
for downOffsetsAux, the fuel only makes the recursion structural: the guard
`offset < 42` fails within 29 iterations from any int8 start offset. -/
def urOffsetsAux : ℕ → ℤ → ℤ → List ℤ
  | 0, _, _ => []
  | fuel + 1, offset, curCol =>
      if offset < 42 ∧ curCol < 7 then offset :: urOffsetsAux fuel (offset + 6) (curCol + 1)
      else []

/-- The up-right diagonal iteration space with enough fuel for any int8
offset. -/
def urOffsets (offset curCol : ℤ) : List ℤ := urOffsetsAux 42 offset curCol

/-- Iteration space of the up-left diagonal loop of makes_new_connect4
(lines 100-105): offsets stepping by `ROW_LENGTH+1 = 8` and columns stepping
by -1, while `offset < ROW_LENGTH*COL_HEIGHT` and `curr_col >= 0`.  The fuel
only makes the recursion structural, as for urOffsetsAux. -/
def ulOffsetsAux : ℕ → ℤ → ℤ → List ℤ
  | 0, _, _ => []
  | fuel + 1, offset, curCol =>
      if offset < 42 ∧ 0 ≤ curCol then offset :: ulOffsetsAux fuel (offset + 8) (curCol - 1)
      else []

/-- The up-left diagonal iteration space with enough fuel for any int8
offset. -/
def ulOffsets (offset curCol : ℤ) : List ℤ := ulOffsetsAux 42 offset curCol

/-- Reading `player_grid & (BIT_ONE<<offset)` (as a boolean) at each offset of
a scan line. -/
def bitsAt (grid : ℕ) (os : List ℤ) : List Bool := os.map fun o => grid.testBit o.toNat

/-- Function makes_new_connect4 of game_manager.c (lines 54-110).  The four
checks run in the C order (vertical, horizontal, up-right diagonal, up-left
diagonal), each with the C loop translated into a scan over its iteration
space. -/
def makes_new_connect4 (game : Game) (col : ℤ) (player_grid : ℕ) : Bool :=
  let row_index : ℤ := occZ game col - 1
  -- Vertical check
  let vcount := breakScan (bitsAt player_grid (downOffsets (compute_offset col row_index)))
  if 4 ≤ vcount then true
  else
    -- Horizontal check
    let hinit : ℤ := row_index * 7
    if runScan (bitsAt player_grid ((List.range 7).map fun (i : ℕ) => hinit + (i : ℤ))) 0 then true
    else
      -- Diagonal up-right check
      let dist : ℤ := if row_index < col then row_index else col
      if runScan (bitsAt player_grid
          (urOffsets (compute_offset col row_index - 6 * dist) (col - dist))) 0 then true
      else
        -- Diagonal up-left check
        let dist' : ℤ := if row_index < 7 - 1 - col then row_index else 7 - 1 - col
        runScan (bitsAt player_grid
          (ulOffsets (compute_offset col row_index - 8 * dist') (col + dist'))) 0

/-- Function winner of game_manager.c (lines 149-161), on a non-null game:
win flags first, then the top-row draw test
`(((gridA|gridB) >> 35) & 0x7F) == 0x7F`. -/
def winner (game : Game) : ℤ :=
  if game.gridA.testBit 61 then PLAYER_A
  else if game.gridB.testBit 61 then PLAYER_B
  else if ((game.gridA ||| game.gridB) >>> 35) &&& 0x7F = 0x7F then DRAW
  else -1

/-- Function game_init of game_manager.c (lines 120-127), on the successful
allocation path: empty grids, zero occupancy, turn flag handed to gridA. -/
def game_init : Game := ⟨TURN_BIT, 0, fun _ => 0⟩

/-- Function now_playing of game_manager.c (lines 144-146). -/
def now_playing (game : Game) : ℤ :=
  if game.gridA &&& TURN_BIT ≠ 0 then PLAYER_A else PLAYER_B

/-- Function play of game_manager.c (lines 164-192), as a pure function
returning the `int8_t` result code together with the state after the call
(the C function mutates `game` in place only on the accepted path).
`is_their_turn_to_play` tests the TURN_BIT of the player's grid (the C
expression `(player_grid & TURN_BIT) >> TURN_BIT` is used for its truth
value). -/
def play (game : Game) (player : ℤ) (col : ℤ) : ℤ × Game :=
  if player ≠ PLAYER_A ∧ player ≠ PLAYER_B then (ARG_ERROR, game)
  else if hcol : col < 0 ∨ 7 ≤ col then (ARG_ERROR, game)
  else
    let c : Fin 7 := ⟨col.toNat, by omega⟩
    if 0 ≤ winner game then (-3, game)
    else if 6 ≤ game.cols_occupation c then (-2, game)
    else
      let this_grid : ℕ := if player = PLAYER_A then game.gridA else game.gridB
      if ¬ this_grid.testBit 62 then (-1, game)
      else
        let offset : ℤ := compute_offset col (game.cols_occupation c)
        let this1 : ℕ := (this_grid ||| (1 <<< offset.toNat)) &&& NOT_TURN_BIT
        let other1 : ℕ := (if player = PLAYER_A then game.gridB else game.gridA) ||| TURN_BIT
        let occ1 : Fin 7 → ℕ := Function.update game.cols_occupation c (game.cols_occupation c + 1)
        let g1 : Game := if player = PLAYER_A then ⟨this1, other1, occ1⟩ else ⟨other1, this1, occ1⟩
        if makes_new_connect4 g1 col this1 then
          (1, if player = PLAYER_A then ⟨this1 ||| WIN_BIT, other1, occ1⟩
              else ⟨other1, this1 ||| WIN_BIT, occ1⟩)
        else if winner g1 = DRAW then (2, g1)
        else (0, g1)

/-- Function play_auto of game_manager.c (lines 195-198). -/
def play_auto (game : Game) (col : ℤ) : ℤ × Game :=
  if game.gridA.testBit 62 then play game PLAYER_A col else play game PLAYER_B col

/-- Function play_auto_without_update of game_manager.c (lines 201-207) on the
successful-allocation path: the move is tried on a value copy, so only the
result code is observable and the argument game is unchanged. -/
def play_auto_without_update (game : Game) (col : ℤ) : ℤ := (play_auto game col).1

/-- Function play_copy_auto of game_manager.c (lines 210-220) on the
successful-allocation path: the updated copy for an accepted move, `none`
(NULL) when the move is rejected. -/
def play_copy_auto (game : Game) (col : ℤ) : Option Game :=
  let r := play_auto game col
  if r.1 < 0 then none else some r.2

/-- The grid of `player` in `game` (function get_player_grid of
game_manager.c, lines 23-25). -/
def playerGridOf (game : Game) (player : ℤ) : ℕ :=
  if player = PLAYER_A then game.gridA else game.gridB

/-! Specification-side board predicates.  These are written from the board
layout documented in game_manager.h: cell (col, row) of a grid lives at bit
`(row+1)*7 - col - 1 = 7*row + 6 - col`, with columns 0..6 and rows 0..5. -/

/-- Cell (c, r) of a bit-packed grid, for `c ≤ 6`. -/
def cellB (grid : ℕ) (c r : ℕ) : Bool := grid.testBit (7 * r + 6 - c)

/-- Four same-player disks in a horizontal row starting at column c. -/
def horizLine (grid : ℕ) (c r : ℕ) : Prop :=
  c + 3 ≤ 6 ∧ r ≤ 5 ∧
    cellB grid c r = true ∧ cellB grid (c + 1) r = true ∧
    cellB grid (c + 2) r = true ∧ cellB grid (c + 3) r = true

/-- Four same-player disks in a vertical column starting at row r. -/
def vertLine (grid : ℕ) (c r : ℕ) : Prop :=
  c ≤ 6 ∧ r + 3 ≤ 5 ∧
    cellB grid c r = true ∧ cellB grid c (r + 1) = true ∧
    cellB grid c (r + 2) = true ∧ cellB grid c (r + 3) = true

/-- Four same-player disks on an up-right diagonal starting at (c, r). -/
def diagURLine (grid : ℕ) (c r : ℕ) : Prop :=
  c + 3 ≤ 6 ∧ r + 3 ≤ 5 ∧
    cellB grid c r = true ∧ cellB grid (c + 1) (r + 1) = true ∧
    cellB grid (c + 2) (r + 2) = true ∧ cellB grid (c + 3) (r + 3) = true

/-- Four same-player disks on an up-left diagonal starting at (c, r). -/
def diagULLine (grid : ℕ) (c r : ℕ) : Prop :=
  3 ≤ c ∧ c ≤ 6 ∧ r + 3 ≤ 5 ∧
    cellB grid c r = true ∧ cellB grid (c - 1) (r + 1) = true ∧
    cellB grid (c - 2) (r + 2) = true ∧ cellB grid (c - 3) (r + 3) = true

/-- The grid contains four same-player collinear disks (horizontal, vertical,
or either diagonal). -/
def hasC4 (grid : ℕ) : Prop :=
  ∃ c < 7, ∃ r < 6,
    horizLine grid c r ∨ vertLine grid c r ∨ diagURLine grid c r ∨ diagULLine grid c r

instance (grid : ℕ) (c r : ℕ) : Decidable (horizLine grid c r) := by
  unfold horizLine; infer_instance

instance (grid : ℕ) (c r : ℕ) : Decidable (vertLine grid c r) := by
  unfold vertLine; infer_instance

instance (grid : ℕ) (c r : ℕ) : Decidable (diagURLine grid c r) := by
  unfold diagURLine; infer_instance

instance (grid : ℕ) (c r : ℕ) : Decidable (diagULLine grid c r) := by
  unfold diagULLine; infer_instance

instance (grid : ℕ) : Decidable (hasC4 grid) := by
  unfold hasC4; infer_instance

/-- States reachable from game_init by sequences of accepted play calls (a
call is accepted when its result code is non-negative). -/
inductive Reachable : Game → Prop
  | init : Reachable game_init
  | step {g : Game} (p c : ℤ) : Reachable g → 0 ≤ (play g p c).1 → Reachable (play g p c).2


/-! Embedding of the rollout simulator and node bookkeeping of src/mcts.c. -/

/-- Macro MEMERROR from mcts.h: `INT8_MIN`. -/
def MEMERROR : ℤ := -128

/-- Macro MCTS_FAIL from mcts.h. -/
def MCTS_FAIL : ℤ := -2

/-- Inner for loop of MTCS_simulation (mcts.c lines 64-65): starting from the
result of playing `first_try_col`, try `(first_try_col+next)%ROW_LENGTH` for
`next = 1..6` while the result is -2 (column full). -/
def tryFrom (g : Game) (first : ℕ) : ℤ × Game :=
  (List.range 6).foldl
    (fun acc n => if acc.1 = -2 then play_auto acc.2 (((first + (n + 1)) % 7 : ℕ) : ℤ) else acc)
    (play_auto g (first : ℤ))

/-- While loop of MTCS_simulation (mcts.c lines 61-66): repeat random
playout moves while the result is not 1, 2 or ARG_ERROR.  The C code draws
`random() % ROW_LENGTH` each iteration; the embedding consumes one entry of
`rand` per iteration and returns the sentinel -99 if the list runs out (the
lemmas below only use the function with enough entries for the playout to
finish, matching the C code's inexhaustible generator). -/
def playoutLoop (g : Game) : List ℕ → ℤ × Game
  | [] => (-99, g)
  | r :: rest =>
      let step := tryFrom g (r % 7)
      if step.1 ≠ 1 ∧ step.1 ≠ 2 ∧ step.1 ≠ ARG_ERROR then playoutLoop step.2 rest
      else step

/-- Function MTCS_simulation of mcts.c (lines 49-78).  `playing_as` is the
static PLAYING_AS; `copyOk` models whether the internal `copy(init_state)`
allocation succeeds (the copy itself is value semantics in the embedding);
`none` models a NULL `init_state`.  Returns 1 / 0 / -1 / MEMERROR as the C
code does, or the sentinel -99 if `rand` runs out mid-playout. -/
def MTCS_simulation (playing_as : ℤ) (copyOk : Bool) (rand : List ℕ)
    (init_state : Option Game) : ℤ :=
  match init_state with
  | none => MEMERROR
  | some s =>
      let winner_check := winner s
      if 0 ≤ winner_check then (if winner_check ≠ DRAW then winner_check else 0)
      else if winner_check = ARG_ERROR then -1
      else if ¬ copyOk then MEMERROR
      else
        let res := playoutLoop s rand
        if res.1 = -99 then -99
        else if res.1 = ARG_ERROR then -1
        else
          let w := winner res.2
          if w = playing_as then 1
          else if w = ARG_ERROR then -1
          else 0

/-- Visit/win counters of a struct mcts_node of mcts.h. -/
structure NodeData where
  nb_wins : ℕ
  nb_visits : ℕ
deriving DecidableEq

/-- Function create_node_and_simulate of mcts.c (lines 90-110), with the
node-allocation outcome (`nodeAllocOk`) and the rollout's internal copy
allocation outcome (`copyOk`) explicit.  Returns `none` for the C NULL. -/
def create_node_and_simulate (playing_as : ℤ) (nodeAllocOk copyOk : Bool)
    (rand : List ℕ) (state : Option Game) : Option NodeData :=
  if ¬ nodeAllocOk then none
  else
    let sim := MTCS_simulation playing_as copyOk rand state
    if sim = MEMERROR then none
    else if sim = -1 then some ⟨0, 0⟩
    else some ⟨sim.toNat, 1⟩

/-- The children-summing loop of MTCS_backpropagation (mcts.c lines 286-291):
total (wins, visits) increments over the present children. -/
def childIncrements (children : Fin 7 → Option NodeData) : ℕ × ℕ :=
  (List.finRange 7).foldl
    (fun acc col =>
      match children col with
      | none => acc
      | some ch => (acc.1 + ch.nb_wins, acc.2 + ch.nb_visits))
    (0, 0)

/-- Function MTCS_backpropagation of mcts.c (lines 274-299).  `leafState` and
`children` are the state and children array of the selected leaf;
`ancestors` is the chain walked by the C parent-pointer loop, i.e. the
selected leaf's own counters first and the root's counters last.  Returns
the updated chain. -/
def MTCS_backpropagation (playing_as : ℤ) (leafState : Game)
    (children : Fin 7 → Option NodeData) (ancestors : List NodeData) : List NodeData :=
  let w := winner leafState
  let incr : ℕ × ℕ :=
    if w = playing_as then (7, 7)
    else if w = 1 - playing_as then (0, 7)
    else childIncrements children
  ancestors.map fun n => ⟨n.nb_wins + incr.1, n.nb_visits + incr.2⟩

/-- The state reached from game_init by the accepted moves A0 B6 A0 B6 A0 B6
A0 (the example of spec §8): player A has completed four disks in column 0
and won. -/
def gameWonByA : Game :=
  (play (play (play (play (play (play (play
    game_init 0 0).2 1 6).2 0 0).2 1 6).2 0 0).2 1 6).2 0 0).2


/-- The state invariant, phrased over an (own grid, other grid, occupancy)
triple so that it can be used symmetrically for the two players. -/
def InvSym (T O : ℕ) (occ : Fin 7 → ℕ) : Prop :=
  (∀ c : Fin 7, occ c ≤ 6) ∧
  (∀ (c : Fin 7) (r : ℕ), r ≤ 5 → ((cellB T (c : ℕ) r || cellB O (c : ℕ) r) = true ↔ r < occ c)) ∧
  (∀ (c : Fin 7) (r : ℕ), r ≤ 5 → ¬(cellB T (c : ℕ) r = true ∧ cellB O (c : ℕ) r = true)) ∧
  (T.testBit 62 = !O.testBit 62) ∧
  (T.testBit 61 = true ↔ hasC4 T) ∧ (O.testBit 61 = true ↔ hasC4 O)

/-- The state invariant of a game. -/
def Inv (g : Game) : Prop := InvSym g.gridA g.gridB g.cols_occupation

/-- The accepted branch of play (game_manager.c lines 177-191), factored out
with the already-validated column as a `Fin 7` index: used to reason about
play after its guard conditions have been discharged. -/
def playStep (g : Game) (p : ℤ) (cF : Fin 7) : ℤ × Game :=
  let this_grid : ℕ := if p = PLAYER_A then g.gridA else g.gridB
  let this1 : ℕ := (this_grid ||| 1 <<< (7 * g.cols_occupation cF + 6 - (cF : ℕ))) &&& NOT_TURN_BIT
  let other1 : ℕ := (if p = PLAYER_A then g.gridB else g.gridA) ||| TURN_BIT
  let occ1 : Fin 7 → ℕ := Function.update g.cols_occupation cF (g.cols_occupation cF + 1)
  let g1 : Game := if p = PLAYER_A then ⟨this1, other1, occ1⟩ else ⟨other1, this1, occ1⟩
  if makes_new_connect4 g1 ((cF : ℕ) : ℤ) this1 then
    (1, if p = PLAYER_A then ⟨this1 ||| WIN_BIT, other1, occ1⟩
        else ⟨other1, this1 ||| WIN_BIT, occ1⟩)
  else if winner g1 = DRAW then (2, g1)
  else (0, g1)

/-! Embedding of the MCTS tree layer of src/mcts.c.  A struct mcts_node
(mcts.h) owns its game state, its two counters and seven child pointers;
parent pointers are represented implicitly: every C parent-pointer walk
(backpropagation) becomes returning the increment along the recursion path
and adding it at each level on the way back up.  NULL pointers are `none`.
Allocations are modelled as succeeding on this layer (the failure paths of
create_node_and_simulate are covered by the NodeData development above),
and the C `random()` stream is an explicit `rand : List ℕ` threaded through
every operation. -/

/-- A struct mcts_node of mcts.h: state, counters and the `children` array,
with the seven slots as explicit fields so that all tree recursions are
structural. -/
inductive Tree where
  | node (state : Game) (nb_wins nb_visits : ℕ)
      (k0 k1 k2 k3 k4 k5 k6 : Option Tree)

/-- Field `state` of a node. -/
def Tree.state : Tree → Game
  | .node s _ _ _ _ _ _ _ _ _ => s

/-- Field `nb_wins` of a node. -/
def Tree.nb_wins : Tree → ℕ
  | .node _ w _ _ _ _ _ _ _ _ => w

/-- Field `nb_visits` of a node. -/
def Tree.nb_visits : Tree → ℕ
  | .node _ _ v _ _ _ _ _ _ _ => v

/-- Read `node->children[i]`. -/
def Tree.child : Tree → Fin 7 → Option Tree
  | .node _ _ _ a _ _ _ _ _ _, ⟨0, _⟩ => a
  | .node _ _ _ _ a _ _ _ _ _, ⟨1, _⟩ => a
  | .node _ _ _ _ _ a _ _ _ _, ⟨2, _⟩ => a
  | .node _ _ _ _ _ _ a _ _ _, ⟨3, _⟩ => a
  | .node _ _ _ _ _ _ _ a _ _, ⟨4, _⟩ => a
  | .node _ _ _ _ _ _ _ _ a _, ⟨5, _⟩ => a
  | .node _ _ _ _ _ _ _ _ _ a, ⟨6, _⟩ => a

/-- Write `node->children[i] = x`. -/
def Tree.setChild : Tree → Fin 7 → Option Tree → Tree
  | .node s w v _ b c d e f g, ⟨0, _⟩, x => .node s w v x b c d e f g
  | .node s w v a _ c d e f g, ⟨1, _⟩, x => .node s w v a x c d e f g
  | .node s w v a b _ d e f g, ⟨2, _⟩, x => .node s w v a b x d e f g
  | .node s w v a b c _ e f g, ⟨3, _⟩, x => .node s w v a b c x e f g
  | .node s w v a b c d _ f g, ⟨4, _⟩, x => .node s w v a b c d x f g
  | .node s w v a b c d e _ g, ⟨5, _⟩, x => .node s w v a b c d e x g
  | .node s w v a b c d e f _, ⟨6, _⟩, x => .node s w v a b c d e f x

/-- `node->nb_wins += dw; node->nb_visits += dv` (one step of a C
backpropagation loop). -/
def Tree.addStats : Tree → ℕ → ℕ → Tree
  | .node s w v a b c d e f g, dw, dv => .node s (w + dw) (v + dv) a b c d e f g

/-- Number of nodes of an optional tree (0 for NULL). -/
def optCount : Option Tree → ℕ
  | none => 0
  | some (.node _ _ _ a b c d e f g) =>
      1 + optCount a + optCount b + optCount c + optCount d
        + optCount e + optCount f + optCount g

/-- Number of nodes of the (sub)tree rooted at `t`. -/
def Tree.nodeCount (t : Tree) : ℕ := optCount (some t)

/-- All seven child pointers are NULL. -/
def Tree.childless (t : Tree) : Prop := ∀ i : Fin 7, t.child i = none

/-- Function is_leaf of mcts.c (lines 29-35): visited at most once, or no
child present. -/
def is_leaf (t : Tree) : Bool :=
  decide (t.nb_visits ≤ 1) || (List.finRange 7).all fun i => (t.child i).isNone

/-- The playout while loop of MTCS_simulation (mcts.c lines 61-66) again,
now also returning the unconsumed tail of the random stream so that
successive rollouts of the tree layer draw successive values, exactly as
successive C `random()` calls do. -/
def playoutRun (g : Game) : List ℕ → ℤ × Game × List ℕ
  | [] => (-99, g, [])
  | r :: rest =>
      let step := tryFrom g (r % 7)
      if step.1 ≠ 1 ∧ step.1 ≠ 2 ∧ step.1 ≠ ARG_ERROR then playoutRun step.2 rest
      else (step.1, step.2, rest)

/-- Function MTCS_simulation of mcts.c (lines 49-78) on the
successful-allocation path, returning the result code together with the
rest of the random stream (see playoutRun). -/
def MTCS_simulation_run (playing_as : ℤ) (rand : List ℕ)
    (init_state : Option Game) : ℤ × List ℕ :=
  match init_state with
  | none => (MEMERROR, rand)
  | some s =>
      let winner_check := winner s
      if 0 ≤ winner_check then ((if winner_check ≠ DRAW then winner_check else 0), rand)
      else if winner_check = ARG_ERROR then (-1, rand)
      else
        let res := playoutRun s rand
        if res.1 = -99 then (-99, res.2.2)
        else if res.1 = ARG_ERROR then (-1, res.2.2)
        else
          let w := winner res.2.1
          ((if w = playing_as then 1 else if w = ARG_ERROR then -1 else 0), res.2.2)

/-- Function create_node_and_simulate of mcts.c (lines 90-110) on the
successful-allocation path, building a tree node: fresh node with no
children, one rollout, counters (sim, 1) — or (0, 0) for the
simulation-exception result -1 — and `none` both for a NULL `state`
argument and for the rollout reporting MEMERROR (a NULL state). -/
def mkNodeSim (playing_as : ℤ) (rand : List ℕ) (state : Option Game) :
    Option Tree × List ℕ :=
  match state with
  | none => (none, rand)
  | some s =>
      let sim := MTCS_simulation_run playing_as rand (some s)
      if sim.1 = MEMERROR then (none, sim.2)
      else if sim.1 = -1 then
        (some (.node s 0 0 none none none none none none none), sim.2)
      else (some (.node s sim.1.toNat 1 none none none none none none none), sim.2)

/-- One descent of MCTS_selection (mcts.c lines 222-251), recorded as the
path of column indices followed from the root.  The UCB maximisation and
its random tie-break (C doubles) are abstracted by the oracle `pick`, which
names the child followed at a non-leaf node; the descent stops at a leaf
(is_leaf) exactly as the C recursion does, and `fuel` bounds the depth —
`Tree.nodeCount t` always suffices, since each step enters a strictly
smaller subtree. -/
def selPath (pick : Tree → Fin 7) : ℕ → Tree → List (Fin 7)
  | 0, _ => []
  | fuel + 1, t =>
      if is_leaf t then []
      else
        match t.child (pick t) with
        | none => []
        | some c => pick t :: selPath pick fuel c

/-- Function MCTS_expansion_simulation of mcts.c (lines 260-266): for each
column, child `col` becomes the node created from
`play_copy_auto(state, col)` — `none` (the C NULL child) when that move is
rejected. -/
def expandNode (playing_as : ℤ) (t : Tree) (rand : List ℕ) : Tree × List ℕ :=
  (List.finRange 7).foldl
    (fun (acc : Tree × List ℕ) (col : Fin 7) =>
      let r := mkNodeSim playing_as acc.2 (play_copy_auto acc.1.state ((col : ℕ) : ℤ))
      (acc.1.setChild col r.1, r.2))
    (t, rand)

/-- The increment computation of MTCS_backpropagation (mcts.c lines
275-292), read off the expanded leaf: (7, 7) when its state is terminal in
the searcher's favor, (0, 7) when terminal for the opponent, otherwise the
componentwise sum of the present children's counters. -/
def nodeDelta (playing_as : ℤ) (t : Tree) : ℕ × ℕ :=
  let w := winner t.state
  if w = playing_as then (7, 7)
  else if w = 1 - playing_as then (0, 7)
  else
    (List.finRange 7).foldl
      (fun (acc : ℕ × ℕ) (col : Fin 7) =>
        match t.child col with
        | none => acc
        | some ch => (acc.1 + ch.nb_wins, acc.2 + ch.nb_visits))
      (0, 0)

/-- The loop body of MCTS (mcts.c lines 399-401) applied below the root
along the selection path `path`: at its end the leaf is expanded
(MCTS_expansion_simulation) and its increment computed
(MTCS_backpropagation); the increment is returned upward and added at every
node of the path — the functional reading of the C parent-pointer loop.  A
step into a missing child (never produced by selPath) leaves the tree
unchanged. -/
def iterAt (playing_as : ℤ) : List (Fin 7) → Tree → List ℕ → Tree × (ℕ × ℕ) × List ℕ
  | [], t, rand =>
      let e := expandNode playing_as t rand
      let d := nodeDelta playing_as e.1
      (e.1.addStats d.1 d.2, (d, e.2))
  | i :: rest, t, rand =>
      match t.child i with
      | none => (t, ((0, 0), rand))
      | some c =>
          let r := iterAt playing_as rest c rand
          ((t.setChild i (some r.1)).addStats r.2.1.1 r.2.1.2, (r.2.1, r.2.2))

/-- The search loop of MCTS (mcts.c lines 397-403): iterate selection,
expansion and backpropagation while `nb_visits < maxv - 7` and the
iteration count stays under the safety cap.  `fuel` is the remaining
allowance of the cap; MCTS runs the loop with `fuel = maxv`, which is the C
guard `loops < MAX_VISITS`.  Returns the final tree, the remaining random
stream and the number of iterations run. -/
def MCTS_loop (playing_as : ℤ) (pick : Tree → Fin 7) (maxv : ℕ) :
    ℕ → Tree → List ℕ → Tree × List ℕ × ℕ
  | 0, t, rand => (t, rand, 0)
  | fuel + 1, t, rand =>
      if t.nb_visits < maxv - 7 then
        let r := iterAt playing_as (selPath pick t.nodeCount t) t rand
        let r2 := MCTS_loop playing_as pick maxv fuel r.1 r.2.2
        (r2.1, (r2.2.1, r2.2.2 + 1))
      else (t, (rand, 0))

/-- The most-visited-child selection of MCTS (mcts.c lines 406-417), with
`acc = (max_visits, selected_col)` over the columns in order.  The C
tie-breaking test reads `tree_root->children[selected_col]->nb_wins`, an
out-of-bounds read while `selected_col` is still -1 and a NULL dereference
when that slot is empty; both are modelled as the tie test failing (they
are unreachable in the runs analysed below, where the first present child
already beats the initial maximum 0). -/
def bestStep (t : Tree) (acc : ℕ × ℤ) (col : Fin 7) : ℕ × ℤ :=
  match t.child col with
  | none => acc
  | some tested =>
      let selWins : Option ℕ :=
        if h : 0 ≤ acc.2 ∧ acc.2 < 7 then
          (t.child ⟨acc.2.toNat, by omega⟩).map Tree.nb_wins
        else none
      let has_more_visits : Bool := decide (acc.1 < tested.nb_visits)
      let has_same_visits_more_wins : Bool :=
        decide (tested.nb_visits = acc.1) &&
          (match selWins with
           | none => false
           | some sw => decide (sw < tested.nb_wins))
      if has_more_visits || has_same_visits_more_wins
      then (tested.nb_visits, ((col : ℕ) : ℤ)) else acc

/-- The most-visited-child selection of MCTS (mcts.c lines 406-417), the
fold of bestStep over the columns with `acc = (max_visits, selected_col)`
starting from (0, -1). -/
def MCTS_best (t : Tree) : ℤ := ((List.finRange 7).foldl (bestStep t) (0, -1)).2

/-- Function MCTS of mcts.c (lines 395-422): run the search loop, then
return the most visited column, or MCTS_FAIL when none was selected.  Also
returns the final tree and random stream (the C tree_root is a global). -/
def MCTS (playing_as : ℤ) (pick : Tree → Fin 7) (maxv : ℕ) (t : Tree)
    (rand : List ℕ) : ℤ × Tree × List ℕ :=
  let r := MCTS_loop playing_as pick maxv maxv t rand
  let sel := MCTS_best r.1
  (if sel = -1 then MCTS_FAIL else sel, (r.1, r.2.1))

/-- The node-creation pass of progress_in_tree (mcts.c lines 337-363): walk
`path` from `t`, descending through existing children and creating missing
ones with create_node_and_simulate; each created child's counters are
backpropagated to all its ancestors (the C inner parent-pointer loop),
rendered by returning the accumulated increment and adding it at every
level on the way up.  The Bool is the C flag `does_node_cxy_exist`: false
once a creation fails, which aborts the walk (already-applied increments
remain, as in C). -/
def ensurePath (playing_as : ℤ) : Tree → List (Fin 7) → List ℕ →
    Tree × Bool × (ℕ × ℕ) × List ℕ
  | t, [], rand => (t, (true, ((0, 0), rand)))
  | t, idx :: rest, rand =>
      match t.child idx with
      | some ch =>
          let r := ensurePath playing_as ch rest rand
          ((t.setChild idx (some r.1)).addStats r.2.2.1.1 r.2.2.1.2,
            (r.2.1, (r.2.2.1, r.2.2.2)))
      | none =>
          let c := mkNodeSim playing_as rand (play_copy_auto t.state ((idx : ℕ) : ℤ))
          match c.1 with
          | none => (t, (false, ((0, 0), c.2)))
          | some n =>
              let r := ensurePath playing_as n rest c.2
              let dw := n.nb_wins + r.2.2.1.1
              let dv := n.nb_visits + r.2.2.1.2
              ((t.setChild idx (some r.1)).addStats dw dv, (r.2.1, ((dw, dv), r.2.2.2)))

/-- The merge backpropagation of progress_in_tree (mcts.c lines 369-372):
add `(dw, dv)` to the node at the end of `path` and to every node above it,
up to and including `t`.  A missing child on the path (unreachable after a
successful ensurePath) leaves the tree unchanged. -/
def addAlong (dw dv : ℕ) : Tree → List (Fin 7) → Tree
  | t, [] => t.addStats dw dv
  | t, i :: rest =>
      match t.child i with
      | none => t
      | some ch => (t.setChild i (some (addAlong dw dv ch rest))).addStats dw dv

/-- Inner (x) loop body of the recombination pass of progress_in_tree
(mcts.c lines 323-374), at outer index `y` and selected column `c`: skip
the colliding pairs, read the counters of root→y→x→c if that branch
exists, ensure the path root→c→x→y exists (ensurePath), and on success
merge the read counters into every node of that path (addAlong). -/
def recombineStep (playing_as : ℤ) (y c : Fin 7) (acc2 : Tree × List ℕ) (x : Fin 7) :
    Tree × List ℕ :=
  if x = y ∨ x = c then acc2
  else
    match (acc2.1.child y).bind (fun ty => (ty.child x).bind fun tx => tx.child c) with
    | none => acc2
    | some gcc =>
        let r := ensurePath playing_as acc2.1 [c, x, y] acc2.2
        if r.2.1 then (addAlong gcc.nb_wins gcc.nb_visits r.1 [c, x, y], r.2.2.2)
        else (r.1, r.2.2.2)

/-- Outer (y) loop body of the recombination pass of progress_in_tree
(mcts.c lines 321-375): the pair loop runs only when `y` differs from the
selected column and child `y` is present. -/
def recombineRow (playing_as : ℤ) (c : Fin 7) (acc : Tree × List ℕ) (y : Fin 7) :
    Tree × List ℕ :=
  if y = c then acc
  else
    match acc.1.child y with
    | none => acc
    | some _ => (List.finRange 7).foldl (recombineStep playing_as y c) acc

/-- Function progress_in_tree of mcts.c (lines 310-384): the recombination
pass (recombineRow over all y), then the reroot at child `c`, created on
the spot when absent; `none` when that creation fails (the C case where
tree_root becomes NULL).  The C `nb_recombined_visits` accounting and the
frees are not observable here. -/
def progress_in_tree (playing_as : ℤ) (t : Tree) (c : Fin 7) (rand : List ℕ) :
    Option Tree × List ℕ :=
  let r1 := (List.finRange 7).foldl (recombineRow playing_as c) (t, rand)
  match r1.1.child c with
  | some sel => (some sel, r1.2)
  | none => mkNodeSim playing_as r1.2 (play_copy_auto r1.1.state ((c : ℕ) : ℤ))

/-- Function can_make_connect4_now of mcts.c (lines 140-145): the first
column, in increasing order, whose tentative automatic play returns 1;
-1 when there is none. -/
def can_make_connect4_now (game : Game) : ℤ :=
  (List.finRange 7).foldl
    (fun (acc : ℤ) (col : Fin 7) =>
      if acc ≠ -1 then acc
      else if play_auto_without_update game ((col : ℕ) : ℤ) = 1 then ((col : ℕ) : ℤ)
      else -1)
    (-1)

/-- Function does_latest_player_threaten_to_connect4 of mcts.c (lines
158-183) on the successful-allocation path: for the first two columns whose
intermediary play is accepted with code 0, test every other column for an
immediate win of the player who moved last;
`acc = (found column, nb_valid_iterations)`. -/
def does_latest_player_threaten_to_connect4 (game : Game) : ℤ :=
  ((List.finRange 7).foldl
    (fun (acc : ℤ × ℕ) (move1 : Fin 7) =>
      if acc.1 ≠ -1 ∨ 2 ≤ acc.2 then acc
      else
        let r := play_auto game ((move1 : ℕ) : ℤ)
        if r.1 ≠ 0 then acc
        else
          ((List.finRange 7).foldl
            (fun (found : ℤ) (move2 : Fin 7) =>
              if found ≠ -1 ∨ move1 = move2 then found
              else if play_auto_without_update r.2 ((move2 : ℕ) : ℤ) = 1 then
                ((move2 : ℕ) : ℤ)
              else -1)
            (-1), acc.2 + 1))
    ((-1 : ℤ), 0)).1

/-- Loop body of the first-continuations initialisation of init_MCTS
(mcts.c lines 446-457): create the node for playing `col` on the empty
game and, if the creation succeeded, store it as child `col` and add its
counters to the root. -/
def initChildStep (playing_as : ℤ) (acc : Tree × List ℕ) (col : Fin 7) : Tree × List ℕ :=
  let ch := mkNodeSim playing_as acc.2 (play_copy_auto game_init ((col : ℕ) : ℤ))
  match ch.1 with
  | none => (acc.1, ch.2)
  | some n => ((acc.1.setChild col (some n)).addStats n.nb_wins n.nb_visits, ch.2)

/-- Continuation of init_MCTS after the root creation (mcts.c lines
445-466): fill the seven first continuations (initChildStep per column),
then — when the engine is PLAYER_A — one MCTS run whose result is both
handed to progress_in_tree and returned.  The C call
progress_in_tree(first_move) indexes children[first_move], which is
undefined for the failure result MCTS_FAIL = -2; that case is modelled as
returning without progressing. -/
def init_after_root (playing_as : ℤ) (pick : Tree → Fin 7) (max_visits : ℕ)
    (root0 : Tree) (rand1 : List ℕ) : ℤ × Option Tree × List ℕ :=
  let filled := (List.finRange 7).foldl (initChildStep playing_as) (root0, rand1)
  if playing_as = PLAYER_A then
    let m := MCTS playing_as pick max_visits filled.1 filled.2
    if h : 0 ≤ m.1 ∧ m.1 < 7 then
      let pr := progress_in_tree playing_as m.2.1 ⟨m.1.toNat, by omega⟩ m.2.2
      (m.1, (pr.1, pr.2))
    else (m.1, (some m.2.1, m.2.2))
  else ((7 : ℤ), (some filled.1, filled.2))

/-- Function init_MCTS of mcts.c (lines 432-466) on the
successful-allocation path: argument check, root node built on game_init,
then init_after_root.  Returns the result column, the tree (the C global
tree_root) and the remaining random stream. -/
def init_MCTS (playing_as : ℤ) (pick : Tree → Fin 7) (max_visits : ℕ)
    (rand : List ℕ) : ℤ × Option Tree × List ℕ :=
  if max_visits < 8 ∨ (playing_as ≠ PLAYER_A ∧ playing_as ≠ PLAYER_B) then
    (ARG_ERROR, (none, rand))
  else
    let root := mkNodeSim playing_as rand (some game_init)
    match root.1 with
    | none => (MEMERROR, (none, root.2))
    | some root0 => init_after_root playing_as pick max_visits root0 root.2

/-- Function input_MCTS of mcts.c (lines 474-501) on the
successful-allocation path, with the tree (the C global tree_root) passed
and returned explicitly.  After progressing into the opponent's move:
immediate-win check (can_make_connect4_now), else opponent-threat check,
else a full MCTS decision.  The C code goes on to call progress_in_tree or
MCTS with tree_root == NULL when a reroot fails (undefined behaviour):
those cases surface here as a `none` tree returned with the same column.
The guards `0 ≤ _ ∧ _ < 7` are the C tests `col_to_play >= 0` — the upper
bound holds for every non-negative result of the two tactical checks and
is needed to index the children array; the final branch's
progress_in_tree(col_to_play) with col_to_play = MCTS_FAIL is again
undefined in C and modelled as returning without progressing. -/
def input_MCTS (playing_as : ℤ) (pick : Tree → Fin 7) (max_visits : ℕ)
    (t : Tree) (col : ℤ) (rand : List ℕ) : ℤ × Option Tree × List ℕ :=
  if h : col < 0 ∨ 7 ≤ col then (ARG_ERROR, (some t, rand))
  else
    let cF : Fin 7 := ⟨col.toNat, by omega⟩
    if (t.child cF).isNone then (-1, (some t, rand))
    else
      let pr := progress_in_tree playing_as t cF rand
      match pr.1 with
      | none => (MCTS_FAIL, (none, pr.2))
      | some t1 =>
          let cw := can_make_connect4_now t1.state
          if hw : 0 ≤ cw ∧ cw < 7 then
            let pr2 := progress_in_tree playing_as t1 ⟨cw.toNat, by omega⟩ pr.2
            match pr2.1 with
            | none => (cw, (none, pr2.2))
            | some t2 =>
                let m := MCTS playing_as pick max_visits t2 pr2.2
                (cw, (some m.2.1, m.2.2))
          else
            let th := does_latest_player_threaten_to_connect4 t1.state
            if hth : 0 ≤ th ∧ th < 7 then
              let pr2 := progress_in_tree playing_as t1 ⟨th.toNat, by omega⟩ pr.2
              match pr2.1 with
              | none => (th, (none, pr2.2))
              | some t2 =>
                  let m := MCTS playing_as pick max_visits t2 pr2.2
                  (th, (some m.2.1, m.2.2))
            else
              let m := MCTS playing_as pick max_visits t1 pr.2
              if hm : 0 ≤ m.1 ∧ m.1 < 7 then
                let pr2 := progress_in_tree playing_as m.2.1 ⟨m.1.toNat, by omega⟩ m.2.2
                (m.1, (pr2.1, pr2.2))
              else (m.1, (some m.2.1, m.2.2))

/-- Tree well-formedness maintained by the MCTS layer: every present child
was produced by an accepted automatic play of its column on the parent's
state, which is how every child node of the code is built (mcts.c lines
262-264, 349, 379 and 447-453). -/
inductive TreeCoherent : Tree → Prop where
  | mk {t : Tree} :
      (∀ (i : Fin 7) (c : Tree), t.child i = some c →
        0 ≤ (play_auto t.state ((i : ℕ) : ℤ)).1) →
      (∀ (i : Fin 7) (c : Tree), t.child i = some c →
        c.state = (play_auto t.state ((i : ℕ) : ℤ)).2) →
      (∀ (i : Fin 7) (c : Tree), t.child i = some c → TreeCoherent c) →
      TreeCoherent t

/-- A near-finished position: after the accepted moves A0 B6 A0 B6 A0,
player B is to move and player A has three disks stacked in column 0. -/
def nearWinState : Game :=
  (play (play (play (play (play game_init 0 0).2 1 6).2 0 0).2 1 6).2 0 0).2

/-- MCTS node for the state reached from nearWinState by the move B6:
player A to move can win immediately in column 0. -/
def cexChild : Tree :=
  Tree.node (play_auto nearWinState 6).2 0 1 none none none none none none none

/-- A two-node search tree rooted at nearWinState whose only child is the
continuation B6 (children slot 6). -/
def cexRoot : Tree :=
  Tree.node nearWinState 0 1 none none none none none none (some cexChild)

/-! ## Helper lemmas -/

theorem winner_ge_neg_one (g : Game) : -1 ≤ winner g := by
  unfold winner; split_ifs <;> simp [PLAYER_A, PLAYER_B, DRAW]

theorem play_wrong_turn_code (g : Game) (p c : ℤ) :
    (play g p c).1 = -1 → (playerGridOf g p).testBit 62 = false := by
  unfold play playerGridOf
  split_ifs <;> (try norm_num [ARG_ERROR]) <;>
    split_ifs <;> (try norm_num [ARG_ERROR]) <;> simp_all

theorem foldl_incr (l : List (Fin 7)) (children : Fin 7 → Option NodeData) (init : ℕ × ℕ) :
    l.foldl (fun acc col => match children col with
      | none => acc
      | some ch => (acc.1 + ch.nb_wins, acc.2 + ch.nb_visits)) init
    = (init.1 + (l.map fun i => ((children i).elim 0 NodeData.nb_wins)).sum,
       init.2 + (l.map fun i => ((children i).elim 0 NodeData.nb_visits)).sum) := by
  induction l generalizing init with
  | nil => simp
  | cons a l ih => cases h : children a <;> simp [h, ih] <;> omega

theorem childIncrements_eq (children : Fin 7 → Option NodeData) :
    childIncrements children =
      (∑ i : Fin 7, (children i).elim 0 NodeData.nb_wins,
       ∑ i : Fin 7, (children i).elim 0 NodeData.nb_visits) := by
  unfold childIncrements
  rw [foldl_incr]
  simp [Fin.sum_univ_def]

/-! ## Claim theorems -/

set_option maxRecDepth 8000 in
/-- C10: game_init, when allocation succeeds, always returns the same initial
state: both grids have no cell bits and no win flag set, every column's
occupancy counter is 0, and the turn flag is assigned to PLAYER_A (gridA has
it, gridB does not), so PLAYER_A always moves first. -/
theorem game_init_spec :
    (∀ c < 7, ∀ r < 6, cellB game_init.gridA c r = false ∧ cellB game_init.gridB c r = false)
  ∧ game_init.gridA.testBit 61 = false ∧ game_init.gridB.testBit 61 = false
  ∧ (∀ c : Fin 7, game_init.cols_occupation c = 0)
  ∧ game_init.gridA.testBit 62 = true ∧ game_init.gridB.testBit 62 = false
  ∧ now_playing game_init = PLAYER_A := by decide

/-- C3: every play call that returns an error (negative result code: wrong
turn, full column, game already finished, or invalid arguments) leaves the
state bit-for-bit identical to the state before the call. -/
theorem play_rejected_preserves_state (g : Game) (p c : ℤ) :
    (play g p c).1 < 0 → (play g p c).2 = g := by
  unfold play
  split_ifs <;> (try norm_num [ARG_ERROR]) <;> split_ifs <;> norm_num [ARG_ERROR]

set_option maxRecDepth 8000 in
/-- Witness for play_rejected_preserves_state at a concrete rejected call
(column 8 is out of range, so the call returns ARG_ERROR). -/
theorem play_rejected_preserves_state_witness :
    (play game_init 0 8).1 < 0 ∧ (play game_init 0 8).2 = game_init :=
  ⟨by decide, play_rejected_preserves_state game_init 0 8 (by decide)⟩

/-- C9: for every game state in which at least one of the two grids carries
the turn flag, play_auto never returns -1 (NotYourTurn): it plays as the
player whose turn flag is set, so that error branch of play is unreachable
through play_auto. -/
theorem play_auto_never_wrong_turn (g : Game) (c : ℤ)
    (h : g.gridA.testBit 62 = true ∨ g.gridB.testBit 62 = true) :
    (play_auto g c).1 ≠ -1 := by
  intro heq
  unfold play_auto at heq
  by_cases hA : g.gridA.testBit 62 = true
  · rw [if_pos hA] at heq
    have := play_wrong_turn_code _ _ _ heq
    simp [playerGridOf, PLAYER_A] at this
    rw [this] at hA; exact Bool.false_ne_true hA
  · rw [if_neg (by simpa using hA)] at heq
    have := play_wrong_turn_code _ _ _ heq
    simp [playerGridOf, PLAYER_A, PLAYER_B] at this
    rcases h with h | h
    · exact hA h
    · rw [this] at h; exact Bool.false_ne_true h

set_option maxRecDepth 8000 in
/-- Witness for play_auto_never_wrong_turn at the initial state (gridA holds
the turn flag there). -/
theorem play_auto_never_wrong_turn_witness :
    (game_init.gridA.testBit 62 = true ∨ game_init.gridB.testBit 62 = true)
    ∧ (play_auto game_init 0).1 ≠ -1 :=
  ⟨Or.inl (by decide), play_auto_never_wrong_turn game_init 0 (Or.inl (by decide))⟩

set_option maxRecDepth 40000 in
/-- C1 (evidence of the divergence): at the terminal state gameWonByA, which
the searcher PLAYER_A has won, MTCS_simulation with the searcher set to
PLAYER_A returns 0, not 1: the terminal branch of mcts.c line 52 returns the
raw winner id (`winner_check`) instead of classifying the outcome relative
to the searcher, so a terminal win of PLAYER_A counts as a loss whenever the
searcher is PLAYER_A (and a terminal win of PLAYER_B then counts as a win). -/
theorem MTCS_simulation_terminal_misclassifies :
    winner gameWonByA = PLAYER_A ∧
    MTCS_simulation PLAYER_A true [] (some gameWonByA) = 0 := by decide

set_option maxRecDepth 40000 in
/-- C5 (counterexample): with the node allocation succeeding but the
rollout's internal state copy failing (an allocation failure during the
rollout), create_node_and_simulate on the non-terminal initial state returns
none (the C NULL): the failure is propagated to the caller, and no node with
visit_count=0 and win_count=0 is returned. -/
theorem create_node_alloc_failure_cex :
    create_node_and_simulate PLAYER_B true false [] (some game_init) = none := by decide

/-- C5 (amended): for every searcher identity, random stream and non-terminal
input state, an allocation failure during the rollout (the copy of the state
failing) makes create_node_and_simulate return none (NULL), propagating the
failure to the caller; the zero-evidence node is produced only for the
simulation-exception result -1, not for allocation failures. -/
theorem create_node_alloc_failure_propagates (pa : ℤ) (rand : List ℕ) (s : Game)
    (h : winner s < 0) :
    create_node_and_simulate pa true false rand (some s) = none := by
  have h1 : ¬ (0 ≤ winner s) := by omega
  have h2 : winner s ≠ ARG_ERROR := by
    have := winner_ge_neg_one s; unfold ARG_ERROR; omega
  unfold create_node_and_simulate MTCS_simulation
  simp [h1, h2]

set_option maxRecDepth 40000 in
/-- Witness for create_node_alloc_failure_propagates at the (non-terminal)
initial state. -/
theorem create_node_alloc_failure_propagates_witness :
    winner game_init < 0 ∧
    create_node_and_simulate PLAYER_B true false [] (some game_init) = none :=
  ⟨by decide, create_node_alloc_failure_propagates PLAYER_B [] game_init (by decide)⟩

/-- C7: for every searcher identity, leaf state, children array and ancestor
chain (the selected leaf first, the root last), backpropagation computes a
delta that is (7,7) when the leaf's state is terminal in the searcher's
favor, (0,7) when it is terminal with the opponent as winner, and otherwise
the componentwise sum of the (win_count, visit_count) of the leaf's present
children; this delta is added to the leaf and to every ancestor up to and
including the root. -/
theorem MTCS_backpropagation_delta_spec (pa : ℤ) (hpa : pa = PLAYER_A ∨ pa = PLAYER_B)
    (leafState : Game) (children : Fin 7 → Option NodeData) (ancestors : List NodeData) :
    ∃ dw dv : ℕ,
      (winner leafState = pa → dw = 7 ∧ dv = 7) ∧
      (winner leafState = 1 - pa → dw = 0 ∧ dv = 7) ∧
      (winner leafState ≠ pa ∧ winner leafState ≠ 1 - pa →
        dw = ∑ i : Fin 7, (children i).elim 0 NodeData.nb_wins ∧
        dv = ∑ i : Fin 7, (children i).elim 0 NodeData.nb_visits) ∧
      MTCS_backpropagation pa leafState children ancestors
        = ancestors.map fun n => ⟨n.nb_wins + dw, n.nb_visits + dv⟩ := by
  have hne : pa ≠ 1 - pa := by
    rcases hpa with h | h <;> rw [h] <;> decide
  unfold MTCS_backpropagation
  by_cases h1 : winner leafState = pa
  · exact ⟨7, 7, fun _ => ⟨rfl, rfl⟩,
      fun h2 => absurd (h1 ▸ h2) hne,
      fun h2 => absurd h1 h2.1,
      by simp [h1]⟩
  · by_cases h2 : winner leafState = 1 - pa
    · exact ⟨0, 7, fun h => absurd h h1, fun _ => ⟨rfl, rfl⟩,
        fun h => absurd h2 h.2,
        by simp [h1, h2, Ne.symm hne]⟩
    · refine ⟨(childIncrements children).1, (childIncrements children).2,
        fun h => absurd h h1, fun h => absurd h h2,
        fun _ => by rw [childIncrements_eq]; exact ⟨rfl, rfl⟩,
        by simp [h1, h2]⟩

/-- Witness for MTCS_backpropagation_delta_spec with the searcher PLAYER_B,
the initial state as leaf state, no children and an empty ancestor chain. -/
theorem MTCS_backpropagation_delta_spec_witness :
    ∃ dw dv : ℕ,
      (winner game_init = PLAYER_B → dw = 7 ∧ dv = 7) ∧
      (winner game_init = 1 - PLAYER_B → dw = 0 ∧ dv = 7) ∧
      (winner game_init ≠ PLAYER_B ∧ winner game_init ≠ 1 - PLAYER_B →
        dw = ∑ i : Fin 7, ((fun _ => (none : Option NodeData)) i).elim 0 NodeData.nb_wins ∧
        dv = ∑ i : Fin 7, ((fun _ => (none : Option NodeData)) i).elim 0 NodeData.nb_visits) ∧
      MTCS_backpropagation PLAYER_B game_init (fun _ => none) []
        = List.map (fun n : NodeData => (⟨n.nb_wins + dw, n.nb_visits + dv⟩ : NodeData)) [] :=
  MTCS_backpropagation_delta_spec PLAYER_B (Or.inr rfl) game_init (fun _ => none) []


/-! ## Win-detection correctness and state invariants -/


theorem getD_map_range (n : ℕ) (f : ℕ → Bool) (j : ℕ) (hj : j < n) :
    ((List.range n).map f).getD j false = f j := by
  simp [List.getD_eq_getElem?_getD, List.getElem?_map, List.getElem?_range hj]

theorem runScan_cons_true (l : List Bool) (c : ℕ) :
    runScan (true :: l) c = if 4 ≤ c + 1 then true else runScan l (c + 1) := by
  simp [runScan]

theorem runScan_cons_false (l : List Bool) (c : ℕ) :
    runScan (false :: l) c = runScan l 0 := by
  simp [runScan]

theorem breakScan_cons_true (l : List Bool) : breakScan (true :: l) = breakScan l + 1 := by
  simp [breakScan]

theorem breakScan_cons_false (l : List Bool) : breakScan (false :: l) = 0 := by
  simp [breakScan]

theorem runScan_of_head4 (l : List Bool) (c : ℕ)
    (h0 : l.getD 0 false = true) (h1 : l.getD 1 false = true)
    (h2 : l.getD 2 false = true) (h3 : l.getD 3 false = true)
    (hlen : 4 ≤ l.length) : runScan l c = true := by
  rcases l with _ | ⟨b0, _ | ⟨b1, _ | ⟨b2, _ | ⟨b3, rest⟩⟩⟩⟩ <;> simp at hlen <;> try omega
  simp only [List.getD_cons_zero, List.getD_cons_succ] at h0 h1 h2 h3
  subst h0; subst h1; subst h2; subst h3
  simp only [runScan]
  split_ifs <;> first | rfl | omega

theorem runScan_of_four (l : List Bool) (c i : ℕ)
    (hlen : i + 4 ≤ l.length)
    (hbits : ∀ k < 4, l.getD (i + k) false = true) :
    runScan l c = true := by
  induction l generalizing c i with
  | nil => simp at hlen
  | cons b rest ih =>
      cases i with
      | zero =>
          exact runScan_of_head4 _ c (hbits 0 (by omega)) (hbits 1 (by omega))
            (hbits 2 (by omega)) (hbits 3 (by omega)) (by simpa using hlen)
      | succ i' =>
          have hbits' : ∀ k < 4, rest.getD (i' + k) false = true := by
            intro k hk
            have h' := hbits k hk
            rw [show i' + 1 + k = (i' + k) + 1 by omega, List.getD_cons_succ] at h'
            exact h'
          have hlen' : i' + 4 ≤ rest.length := by simp at hlen; omega
          cases hb : b <;> subst hb <;> simp only [runScan] <;> split_ifs <;>
            first
              | rfl
              | exact ih _ i' hlen' hbits'

theorem runScan_true_elim (l : List Bool) (c : ℕ) (h : runScan l c = true) :
    (∃ i, i + 4 ≤ l.length ∧ ∀ k < 4, l.getD (i + k) false = true) ∨
    (∃ j, j ≤ l.length ∧ (∀ k < j, l.getD k false = true) ∧ 4 ≤ c + j) := by
  induction l generalizing c with
  | nil => simp [runScan] at h
  | cons b rest ih =>
      have shift : (∃ i, i + 4 ≤ rest.length ∧ ∀ k < 4, rest.getD (i + k) false = true) →
          (∃ i, i + 4 ≤ (b :: rest).length ∧ ∀ k < 4, (b :: rest).getD (i + k) false = true) := by
        rintro ⟨i, hi, hbits⟩
        refine ⟨i + 1, by simp; omega, fun k hk => ?_⟩
        rw [show i + 1 + k = (i + k) + 1 by omega, List.getD_cons_succ]
        exact hbits k hk
      cases hb : b <;> subst hb
      · rw [runScan_cons_false] at h
        rcases ih 0 h with hwin | ⟨j, hj, hbits, hcj⟩
        · exact Or.inl (shift hwin)
        · refine Or.inl (shift ⟨0, by omega, fun k hk => ?_⟩)
          simpa using hbits k (by omega)
      · rw [runScan_cons_true] at h
        by_cases hfire : 4 ≤ c + 1
        · exact Or.inr ⟨1, by simp, fun k hk => by interval_cases k <;> simp, by omega⟩
        · rw [if_neg hfire] at h
          rcases ih (c + 1) h with hwin | ⟨j, hj, hbits, hcj⟩
          · exact Or.inl (shift hwin)
          · refine Or.inr ⟨j + 1, by simp; omega, fun k hk => ?_, by omega⟩
            cases k with
            | zero => simp
            | succ k' => rw [List.getD_cons_succ]; exact hbits k' (by omega)

theorem runScan_zero_iff (l : List Bool) :
    runScan l 0 = true ↔ ∃ i, i + 4 ≤ l.length ∧ ∀ k < 4, l.getD (i + k) false = true := by
  constructor
  · intro h
    rcases runScan_true_elim l 0 h with h | ⟨j, hj, hbits, hcj⟩
    · exact h
    · exact ⟨0, by omega, fun k hk => by simpa using hbits k (by omega)⟩
  · rintro ⟨i, hi, hbits⟩
    exact runScan_of_four l 0 i hi hbits

theorem breakScan_ge_iff (l : List Bool) (n : ℕ) :
    n ≤ breakScan l ↔ (n ≤ l.length ∧ ∀ k < n, l.getD k false = true) := by
  induction l generalizing n with
  | nil => cases n <;> simp [breakScan]
  | cons b rest ih =>
      cases n with
      | zero => simp
      | succ n' =>
          cases hb : b <;> subst hb
          · rw [breakScan_cons_false]
            constructor
            · omega
            · rintro ⟨h1, h2⟩
              have := h2 0 (by omega)
              simp at this
          · rw [breakScan_cons_true, Nat.add_le_add_iff_right, ih]
            constructor
            · rintro ⟨h1, h2⟩
              refine ⟨by simp; omega, fun k hk => ?_⟩
              cases k with
              | zero => simp
              | succ k' => rw [List.getD_cons_succ]; exact h2 k' (by omega)
            · rintro ⟨h1, h2⟩
              refine ⟨by simp at h1; omega, fun k hk => ?_⟩
              have := h2 (k + 1) (by omega)
              rw [List.getD_cons_succ] at this
              exact this



theorem downOffsetsAux_neg (fuel : ℕ) (o : ℤ) (h : o < 0) : downOffsetsAux fuel o = [] := by
  cases fuel with
  | zero => rfl
  | succ f => rw [downOffsetsAux, if_neg (by omega)]

theorem urOffsetsAux_stop (fuel : ℕ) (o cc : ℤ) (h : ¬(o < 42 ∧ cc < 7)) :
    urOffsetsAux fuel o cc = [] := by
  cases fuel with
  | zero => rfl
  | succ f => rw [urOffsetsAux, if_neg h]

theorem ulOffsetsAux_stop (fuel : ℕ) (o cc : ℤ) (h : ¬(o < 42 ∧ 0 ≤ cc)) :
    ulOffsetsAux fuel o cc = [] := by
  cases fuel with
  | zero => rfl
  | succ f => rw [ulOffsetsAux, if_neg h]

theorem vertBitsAux_eq (g : ℕ) (c : ℕ) (hc : c ≤ 6) :
    ∀ (r fuel : ℕ), r < fuel →
    bitsAt g (downOffsetsAux fuel ((7 * r + 6 - c : ℕ) : ℤ)) =
      (List.range (r + 1)).map fun i => cellB g c (r - i) := by
  intro r
  induction r with
  | zero =>
      intro fuel hf
      obtain ⟨f, rfl⟩ : ∃ f, fuel = f + 1 := ⟨fuel - 1, by omega⟩
      rw [downOffsetsAux, if_pos (by omega)]
      rw [show ((7 * 0 + 6 - c : ℕ) : ℤ) - 7 = ((6 - c : ℕ) : ℤ) - 7 by norm_num]
      rw [downOffsetsAux_neg f _ (by omega)]
      simp [bitsAt, cellB]
  | succ r ih =>
      intro fuel hf
      obtain ⟨f, rfl⟩ : ∃ f, fuel = f + 1 := ⟨fuel - 1, by omega⟩
      rw [downOffsetsAux, if_pos (by omega)]
      rw [show ((7 * (r + 1) + 6 - c : ℕ) : ℤ) - 7 = ((7 * r + 6 - c : ℕ) : ℤ) by omega]
      rw [List.range_succ_eq_map]
      simp only [bitsAt, List.map_cons, List.map_map] at *
      rw [ih f (by omega)]
      congr 1
      simp [cellB]
-- placeholder end

theorem urBitsAux_eq (g : ℕ) :
    ∀ (n c0 r0 fuel : ℕ), c0 ≤ 6 → r0 ≤ 5 → n = min (6 - c0) (5 - r0) → n < fuel →
    bitsAt g (urOffsetsAux fuel ((7 * r0 + 6 - c0 : ℕ) : ℤ) (c0 : ℤ)) =
      (List.range (n + 1)).map fun i => cellB g (c0 + i) (r0 + i) := by
  intro n
  induction n with
  | zero =>
      intro c0 r0 fuel hc hr hmin hf
      obtain ⟨f, rfl⟩ : ∃ f, fuel = f + 1 := ⟨fuel - 1, by omega⟩
      rw [urOffsetsAux, if_pos (by constructor <;> omega)]
      rw [urOffsetsAux_stop f _ _ (by omega)]
      simp only [bitsAt, List.map_cons, List.map_nil, cellB]
      rw [show List.range 1 = [0] from rfl]
      simp only [List.map_cons, List.map_nil, List.cons.injEq, and_true]
      congr 1
      all_goals omega
  | succ n ih =>
      intro c0 r0 fuel hc hr hmin hf
      obtain ⟨f, rfl⟩ : ∃ f, fuel = f + 1 := ⟨fuel - 1, by omega⟩
      have hc6 : c0 < 6 := by omega
      have hr5 : r0 < 5 := by omega
      rw [urOffsetsAux, if_pos (by constructor <;> omega)]
      rw [show ((7 * r0 + 6 - c0 : ℕ) : ℤ) + 6 = ((7 * (r0 + 1) + 6 - (c0 + 1) : ℕ) : ℤ) by omega]
      rw [show ((c0 : ℕ) : ℤ) + 1 = ((c0 + 1 : ℕ) : ℤ) by omega]
      rw [List.range_succ_eq_map]
      simp only [bitsAt, List.map_cons, List.map_map] at *
      rw [ih (c0 + 1) (r0 + 1) f (by omega) (by omega) (by omega) (by omega)]
      congr 1
      apply List.map_congr_left
      intro a ha
      simp only [Function.comp, cellB]
      congr 1
      omega

theorem ulBitsAux_eq (g : ℕ) :
    ∀ (n c0 r0 fuel : ℕ), c0 ≤ 6 → r0 ≤ 5 → n = min c0 (5 - r0) → n < fuel →
    bitsAt g (ulOffsetsAux fuel ((7 * r0 + 6 - c0 : ℕ) : ℤ) (c0 : ℤ)) =
      (List.range (n + 1)).map fun i => cellB g (c0 - i) (r0 + i) := by
  intro n
  induction n with
  | zero =>
      intro c0 r0 fuel hc hr hmin hf
      obtain ⟨f, rfl⟩ : ∃ f, fuel = f + 1 := ⟨fuel - 1, by omega⟩
      rw [ulOffsetsAux, if_pos (by constructor <;> omega)]
      rw [ulOffsetsAux_stop f _ _ (by omega)]
      simp only [bitsAt, List.map_cons, List.map_nil, cellB]
      rw [show List.range 1 = [0] from rfl]
      simp only [List.map_cons, List.map_nil, List.cons.injEq, and_true]
      congr 1
      all_goals omega
  | succ n ih =>
      intro c0 r0 fuel hc hr hmin hf
      obtain ⟨f, rfl⟩ : ∃ f, fuel = f + 1 := ⟨fuel - 1, by omega⟩
      have hc1 : 1 ≤ c0 := by omega
      have hr5 : r0 < 5 := by omega
      rw [ulOffsetsAux, if_pos (by constructor <;> omega)]
      rw [show ((7 * r0 + 6 - c0 : ℕ) : ℤ) + 8 = ((7 * (r0 + 1) + 6 - (c0 - 1) : ℕ) : ℤ) by omega]
      rw [show ((c0 : ℕ) : ℤ) - 1 = ((c0 - 1 : ℕ) : ℤ) by omega]
      rw [List.range_succ_eq_map]
      simp only [bitsAt, List.map_cons, List.map_map] at *
      rw [ih (c0 - 1) (r0 + 1) f (by omega) (by omega) (by omega) (by omega)]
      congr 1
      apply List.map_congr_left
      intro a ha
      simp only [Function.comp, cellB]
      congr 1
      omega

theorem horizBits_eq (g : ℕ) (r : ℕ) :
    bitsAt g ((List.range 7).map fun (i : ℕ) => (r : ℤ) * 7 + (i : ℤ)) =
      (List.range 7).map fun i => cellB g (6 - i) r := by
  simp only [bitsAt, List.map_map]
  apply List.map_congr_left
  intro i hi
  simp only [List.mem_range] at hi
  simp only [Function.comp]
  rw [show (((r : ℤ) * 7 + (i : ℤ))).toNat = 7 * r + 6 - (6 - i) by omega]
  rfl


theorem compute_offset_eq (c r : ℕ) (hc : c ≤ 6) :
    compute_offset (c : ℤ) (r : ℤ) = ((7 * r + 6 - c : ℕ) : ℤ) := by
  unfold compute_offset; omega

theorem makes_new_iff_scans (g2 : Game) (grid : ℕ) (c r : ℕ) (hc : c ≤ 6) (hr : r ≤ 5)
    (hocc : occZ g2 (c : ℤ) = (r : ℤ) + 1) :
    (makes_new_connect4 g2 (c : ℤ) grid = true ↔
      (4 ≤ breakScan ((List.range (r + 1)).map fun i => cellB grid c (r - i))
       ∨ runScan ((List.range 7).map fun i => cellB grid (6 - i) r) 0 = true
       ∨ runScan ((List.range (min (6 - (c - min r c)) (5 - (r - min r c)) + 1)).map
            fun i => cellB grid (c - min r c + i) (r - min r c + i)) 0 = true
       ∨ runScan ((List.range (min ((c + min r (6 - c))) (5 - (r - min r (6 - c))) + 1)).map
            fun i => cellB grid (c + min r (6 - c) - i) (r - min r (6 - c) + i)) 0 = true)) := by
  unfold makes_new_connect4
  rw [hocc]
  rw [show ((r : ℤ) + 1 - 1) = (r : ℤ) from by ring]
  dsimp only
  rw [show (if (r : ℤ) < (c : ℤ) then (r : ℤ) else (c : ℤ)) = ((min r c : ℕ) : ℤ) from by
    split_ifs <;> omega]
  rw [show (if (r : ℤ) < 7 - 1 - (c : ℤ) then (r : ℤ) else 7 - 1 - (c : ℤ))
      = ((min r (6 - c) : ℕ) : ℤ) from by split_ifs <;> omega]
  rw [show compute_offset (c : ℤ) (r : ℤ) - 6 * ((min r c : ℕ) : ℤ)
      = ((7 * (r - min r c) + 6 - (c - min r c) : ℕ) : ℤ) from by unfold compute_offset; omega]
  rw [show (c : ℤ) - ((min r c : ℕ) : ℤ) = ((c - min r c : ℕ) : ℤ) from by omega]
  rw [show compute_offset (c : ℤ) (r : ℤ) - 8 * ((min r (6 - c) : ℕ) : ℤ)
      = ((7 * (r - min r (6 - c)) + 6 - (c + min r (6 - c)) : ℕ) : ℤ) from by
    unfold compute_offset; omega]
  rw [show (c : ℤ) + ((min r (6 - c) : ℕ) : ℤ) = ((c + min r (6 - c) : ℕ) : ℤ) from by omega]
  rw [compute_offset_eq c r hc]
  unfold downOffsets urOffsets ulOffsets
  rw [vertBitsAux_eq grid c hc r 42 (by omega)]
  rw [urBitsAux_eq grid (min (6 - (c - min r c)) (5 - (r - min r c))) (c - min r c)
        (r - min r c) 42 (by omega) (by omega) rfl (by omega)]
  rw [ulBitsAux_eq grid (min (c + min r (6 - c)) (5 - (r - min r (6 - c)))) (c + min r (6 - c))
        (r - min r (6 - c)) 42 (by omega) (by omega) rfl (by omega)]
  rw [show ((r : ℤ) * 7) = ((r : ℕ) : ℤ) * 7 from rfl]
  rw [horizBits_eq grid r]
  split_ifs with h1 h2 h3 <;> simp_all


theorem vert_scan_sound (grid : ℕ) (c r : ℕ) (hc : c ≤ 6) (hr : r ≤ 5)
    (h : 4 ≤ breakScan ((List.range (r + 1)).map fun i => cellB grid c (r - i))) :
    3 ≤ r ∧ vertLine grid c (r - 3) := by
  rw [breakScan_ge_iff] at h
  obtain ⟨hlen, hbits⟩ := h
  simp only [List.length_map, List.length_range] at hlen
  have h3 : 3 ≤ r := by omega
  have b0 := hbits 0 (by omega); rw [getD_map_range _ _ _ (by omega)] at b0
  have b1 := hbits 1 (by omega); rw [getD_map_range _ _ _ (by omega)] at b1
  have b2 := hbits 2 (by omega); rw [getD_map_range _ _ _ (by omega)] at b2
  have b3 := hbits 3 (by omega); rw [getD_map_range _ _ _ (by omega)] at b3
  refine ⟨h3, hc, by omega, ?_, ?_, ?_, ?_⟩
  · rw [show r - 3 = r - 3 by rfl]; exact b3
  · rw [show r - 3 + 1 = r - 2 by omega]; exact b2
  · rw [show r - 3 + 2 = r - 1 by omega]; exact b1
  · rw [show r - 3 + 3 = r - 0 by omega]; exact b0

theorem horiz_scan_sound (grid r : ℕ) (hr : r ≤ 5)
    (h : runScan ((List.range 7).map fun i => cellB grid (6 - i) r) 0 = true) :
    ∃ c0, horizLine grid c0 r := by
  rw [runScan_zero_iff] at h
  obtain ⟨i, hlen, hbits⟩ := h
  simp only [List.length_map, List.length_range] at hlen
  have b0 := hbits 0 (by omega); rw [getD_map_range _ _ _ (by omega)] at b0
  have b1 := hbits 1 (by omega); rw [getD_map_range _ _ _ (by omega)] at b1
  have b2 := hbits 2 (by omega); rw [getD_map_range _ _ _ (by omega)] at b2
  have b3 := hbits 3 (by omega); rw [getD_map_range _ _ _ (by omega)] at b3
  refine ⟨3 - i, by omega, hr, ?_, ?_, ?_, ?_⟩
  · rw [show 3 - i = 6 - (i + 3) by omega]; exact b3
  · rw [show 3 - i + 1 = 6 - (i + 2) by omega]; exact b2
  · rw [show 3 - i + 2 = 6 - (i + 1) by omega]; exact b1
  · rw [show 3 - i + 3 = 6 - (i + 0) by omega]; exact b0

theorem ur_scan_sound (grid c r : ℕ) (hc : c ≤ 6) (hr : r ≤ 5)
    (h : runScan ((List.range (min (6 - (c - min r c)) (5 - (r - min r c)) + 1)).map
          fun i => cellB grid (c - min r c + i) (r - min r c + i)) 0 = true) :
    ∃ c0 r0, c0 < 7 ∧ r0 < 6 ∧ diagURLine grid c0 r0 := by
  rw [runScan_zero_iff] at h
  obtain ⟨i, hlen, hbits⟩ := h
  simp only [List.length_map, List.length_range] at hlen
  have b0 := hbits 0 (by omega); rw [getD_map_range _ _ _ (by omega)] at b0
  have b1 := hbits 1 (by omega); rw [getD_map_range _ _ _ (by omega)] at b1
  have b2 := hbits 2 (by omega); rw [getD_map_range _ _ _ (by omega)] at b2
  have b3 := hbits 3 (by omega); rw [getD_map_range _ _ _ (by omega)] at b3
  refine ⟨c - min r c + i, r - min r c + i, by omega, by omega, by omega, by omega, b0, ?_, ?_, ?_⟩
  · rw [show c - min r c + i + 1 = c - min r c + (i + 1) by omega,
        show r - min r c + i + 1 = r - min r c + (i + 1) by omega]; exact b1
  · rw [show c - min r c + i + 2 = c - min r c + (i + 2) by omega,
        show r - min r c + i + 2 = r - min r c + (i + 2) by omega]; exact b2
  · rw [show c - min r c + i + 3 = c - min r c + (i + 3) by omega,
        show r - min r c + i + 3 = r - min r c + (i + 3) by omega]; exact b3

theorem ul_scan_sound (grid c r : ℕ) (hc : c ≤ 6) (hr : r ≤ 5)
    (h : runScan ((List.range (min ((c + min r (6 - c))) (5 - (r - min r (6 - c))) + 1)).map
          fun i => cellB grid (c + min r (6 - c) - i) (r - min r (6 - c) + i)) 0 = true) :
    ∃ c0 r0, c0 < 7 ∧ r0 < 6 ∧ diagULLine grid c0 r0 := by
  rw [runScan_zero_iff] at h
  obtain ⟨i, hlen, hbits⟩ := h
  simp only [List.length_map, List.length_range] at hlen
  have b0 := hbits 0 (by omega); rw [getD_map_range _ _ _ (by omega)] at b0
  have b1 := hbits 1 (by omega); rw [getD_map_range _ _ _ (by omega)] at b1
  have b2 := hbits 2 (by omega); rw [getD_map_range _ _ _ (by omega)] at b2
  have b3 := hbits 3 (by omega); rw [getD_map_range _ _ _ (by omega)] at b3
  refine ⟨c + min r (6 - c) - i, r - min r (6 - c) + i, by omega, by omega, by omega, by omega,
    by omega, b0, ?_, ?_, ?_⟩
  · rw [show c + min r (6 - c) - i - 1 = c + min r (6 - c) - (i + 1) by omega,
        show r - min r (6 - c) + i + 1 = r - min r (6 - c) + (i + 1) by omega]; exact b1
  · rw [show c + min r (6 - c) - i - 2 = c + min r (6 - c) - (i + 2) by omega,
        show r - min r (6 - c) + i + 2 = r - min r (6 - c) + (i + 2) by omega]; exact b2
  · rw [show c + min r (6 - c) - i - 3 = c + min r (6 - c) - (i + 3) by omega,
        show r - min r (6 - c) + i + 3 = r - min r (6 - c) + (i + 3) by omega]; exact b3


theorem cellB_insert (old grid : ℕ) (c r x y : ℕ) (hx : x ≤ 6) (hy : y ≤ 5)
    (hins : ∀ i, i ≤ 41 → grid.testBit i = (old.testBit i || decide (i = 7 * r + 6 - c)))
    (hc : c ≤ 6) :
    cellB grid x y = (cellB old x y || decide (x = c ∧ y = r)) := by
  unfold cellB
  rw [hins _ (by omega)]
  congr 1
  simp only [decide_eq_decide]
  omega

theorem vert_scan_complete (grid : ℕ) (c r r0 : ℕ) (hb : vertLine grid c r0) (hrr : r0 + 3 = r) :
    4 ≤ breakScan ((List.range (r + 1)).map fun i => cellB grid c (r - i)) := by
  obtain ⟨hc6, hr5, h0, h1, h2, h3⟩ := hb
  rw [breakScan_ge_iff]
  refine ⟨by simp only [List.length_map, List.length_range]; omega, fun k hk => ?_⟩
  rw [getD_map_range _ _ _ (by omega)]
  interval_cases k
  · rw [show r - 0 = r0 + 3 by omega]; exact h3
  · rw [show r - 1 = r0 + 2 by omega]; exact h2
  · rw [show r - 2 = r0 + 1 by omega]; exact h1
  · rw [show r - 3 = r0 by omega]; exact h0

theorem horiz_scan_complete (grid : ℕ) (r c0 : ℕ) (hb : horizLine grid c0 r) :
    runScan ((List.range 7).map fun i => cellB grid (6 - i) r) 0 = true := by
  obtain ⟨hc3, hr5, h0, h1, h2, h3⟩ := hb
  rw [runScan_zero_iff]
  refine ⟨3 - c0, by simp only [List.length_map, List.length_range]; omega, fun k hk => ?_⟩
  rw [getD_map_range _ _ _ (by omega)]
  interval_cases k
  · rw [show 6 - (3 - c0 + 0) = c0 + 3 by omega]; exact h3
  · rw [show 6 - (3 - c0 + 1) = c0 + 2 by omega]; exact h2
  · rw [show 6 - (3 - c0 + 2) = c0 + 1 by omega]; exact h1
  · rw [show 6 - (3 - c0 + 3) = c0 by omega]; exact h0

theorem ur_scan_complete (grid : ℕ) (c r c0 r0 t : ℕ) (hc : c ≤ 6) (hr : r ≤ 5)
    (hb : diagURLine grid c0 r0) (ht : t < 4) (hct : c0 + t = c) (hrt : r0 + t = r) :
    runScan ((List.range (min (6 - (c - min r c)) (5 - (r - min r c)) + 1)).map
      fun i => cellB grid (c - min r c + i) (r - min r c + i)) 0 = true := by
  obtain ⟨hc3, hr3, h0, h1, h2, h3⟩ := hb
  rw [runScan_zero_iff]
  refine ⟨min r c - t, by simp only [List.length_map, List.length_range]; omega, fun k hk => ?_⟩
  rw [getD_map_range _ _ _ (by omega)]
  have hc0 : c - min r c + (min r c - t) = c0 := by omega
  interval_cases k
  · rw [show c - min r c + (min r c - t + 0) = c0 by omega,
        show r - min r c + (min r c - t + 0) = r0 by omega]; exact h0
  · rw [show c - min r c + (min r c - t + 1) = c0 + 1 by omega,
        show r - min r c + (min r c - t + 1) = r0 + 1 by omega]; exact h1
  · rw [show c - min r c + (min r c - t + 2) = c0 + 2 by omega,
        show r - min r c + (min r c - t + 2) = r0 + 2 by omega]; exact h2
  · rw [show c - min r c + (min r c - t + 3) = c0 + 3 by omega,
        show r - min r c + (min r c - t + 3) = r0 + 3 by omega]; exact h3

theorem ul_scan_complete (grid : ℕ) (c r c0 r0 t : ℕ) (hc : c ≤ 6) (hr : r ≤ 5)
    (hb : diagULLine grid c0 r0) (ht : t < 4) (hct : c0 - t = c) (hc0t : t ≤ c0)
    (hrt : r0 + t = r) :
    runScan ((List.range (min ((c + min r (6 - c))) (5 - (r - min r (6 - c))) + 1)).map
      fun i => cellB grid (c + min r (6 - c) - i) (r - min r (6 - c) + i)) 0 = true := by
  obtain ⟨hc3u, hc6u, hr3, h0, h1, h2, h3⟩ := hb
  rw [runScan_zero_iff]
  refine ⟨min r (6 - c) - t, by simp only [List.length_map, List.length_range]; omega, fun k hk => ?_⟩
  rw [getD_map_range _ _ _ (by omega)]
  interval_cases k
  · rw [show c + min r (6 - c) - (min r (6 - c) - t + 0) = c0 by omega,
        show r - min r (6 - c) + (min r (6 - c) - t + 0) = r0 by omega]; exact h0
  · rw [show c + min r (6 - c) - (min r (6 - c) - t + 1) = c0 - 1 by omega,
        show r - min r (6 - c) + (min r (6 - c) - t + 1) = r0 + 1 by omega]; exact h1
  · rw [show c + min r (6 - c) - (min r (6 - c) - t + 2) = c0 - 2 by omega,
        show r - min r (6 - c) + (min r (6 - c) - t + 2) = r0 + 2 by omega]; exact h2
  · rw [show c + min r (6 - c) - (min r (6 - c) - t + 3) = c0 - 3 by omega,
        show r - min r (6 - c) + (min r (6 - c) - t + 3) = r0 + 3 by omega]; exact h3


theorem cell_old_of_not_new (old grid c r x y : ℕ) (hx : x ≤ 6) (hy : y ≤ 5) (hc : c ≤ 6)
    (hins : ∀ i, i ≤ 41 → grid.testBit i = (old.testBit i || decide (i = 7 * r + 6 - c)))
    (hcell : cellB grid x y = true) (hne : ¬(x = c ∧ y = r)) :
    cellB old x y = true := by
  rw [cellB_insert old grid c r x y hx hy hins hc] at hcell
  have h' : cellB old x y = true ∨ (x = c ∧ y = r) := by simpa using hcell
  rcases h' with h | h
  · exact h
  · exact absurd h hne

theorem makes_new_sound (g2 : Game) (grid : ℕ) (c r : ℕ) (hc : c ≤ 6) (hr : r ≤ 5)
    (hocc : occZ g2 (c : ℤ) = (r : ℤ) + 1)
    (h : makes_new_connect4 g2 (c : ℤ) grid = true) : hasC4 grid := by
  rw [makes_new_iff_scans g2 grid c r hc hr hocc] at h
  rcases h with h | h | h | h
  · obtain ⟨h3, hline⟩ := vert_scan_sound grid c r hc hr h
    exact ⟨c, by omega, r - 3, by omega, Or.inr (Or.inl hline)⟩
  · obtain ⟨c0, hline⟩ := horiz_scan_sound grid r hr h
    exact ⟨c0, by have := hline.1; omega, r, by omega, Or.inl hline⟩
  · obtain ⟨c0, r0, hc0, hr0, hline⟩ := ur_scan_sound grid c r hc hr h
    exact ⟨c0, hc0, r0, hr0, Or.inr (Or.inr (Or.inl hline))⟩
  · obtain ⟨c0, r0, hc0, hr0, hline⟩ := ul_scan_sound grid c r hc hr h
    exact ⟨c0, hc0, r0, hr0, Or.inr (Or.inr (Or.inr hline))⟩

theorem makes_new_complete (g2 : Game) (old grid : ℕ) (c r : ℕ) (hc : c ≤ 6) (hr : r ≤ 5)
    (hocc : occZ g2 (c : ℤ) = (r : ℤ) + 1)
    (hins : ∀ i, i ≤ 41 → grid.testBit i = (old.testBit i || decide (i = 7 * r + 6 - c)))
    (hnoC4 : ¬ hasC4 old)
    (habove : ∀ r', r < r' → r' ≤ 5 → cellB grid c r' = false)
    (h4 : hasC4 grid) : makes_new_connect4 g2 (c : ℤ) grid = true := by
  rw [makes_new_iff_scans g2 grid c r hc hr hocc]
  obtain ⟨c0, hc0, r0, hr0, hline⟩ := h4
  rcases hline with hb | hb | hb | hb
  · -- horizontal line: it must contain the new cell, hence lie in row r
    by_cases htouch : ∃ t < 4, c0 + t = c ∧ r0 = r
    · obtain ⟨t, ht, hct, rfl⟩ := htouch
      exact Or.inr (Or.inl (horiz_scan_complete grid r0 c0 hb))
    · push_neg at htouch
      exfalso
      obtain ⟨hA, hB, h0, h1, h2, h3⟩ := hb
      refine hnoC4 ⟨c0, hc0, r0, hr0, Or.inl ⟨hA, hB, ?_, ?_, ?_, ?_⟩⟩
      · exact cell_old_of_not_new old grid c r c0 r0 (by omega) (by omega) hc hins h0
          (by intro hh; exact absurd hh.2 (by have := htouch 0 (by omega); omega))
      · exact cell_old_of_not_new old grid c r (c0+1) r0 (by omega) (by omega) hc hins h1
          (by intro hh; exact absurd hh.2 (by have := htouch 1 (by omega); omega))
      · exact cell_old_of_not_new old grid c r (c0+2) r0 (by omega) (by omega) hc hins h2
          (by intro hh; exact absurd hh.2 (by have := htouch 2 (by omega); omega))
      · exact cell_old_of_not_new old grid c r (c0+3) r0 (by omega) (by omega) hc hins h3
          (by intro hh; exact absurd hh.2 (by have := htouch 3 (by omega); omega))
  · -- vertical line: it must contain the new cell; since the cells above the
    -- new disk are empty, the new cell is the top of the line
    by_cases htouch : ∃ t < 4, c0 = c ∧ r0 + t = r
    · obtain ⟨t, ht, rfl, hrt⟩ := htouch
      have ht3 : t = 3 := by
        by_contra hne
        obtain ⟨hA, hB, h0, h1, h2, h3⟩ := hb
        have habv := habove (r0 + t + 1) (by omega) (by omega)
        interval_cases t
        · rw [show r0 + 0 + 1 = r0 + 1 by omega] at habv; rw [habv] at h1; exact Bool.false_ne_true h1
        · rw [show r0 + 1 + 1 = r0 + 2 by omega] at habv; rw [habv] at h2; exact Bool.false_ne_true h2
        · rw [show r0 + 2 + 1 = r0 + 3 by omega] at habv; rw [habv] at h3; exact Bool.false_ne_true h3
        · omega
      exact Or.inl (vert_scan_complete grid c0 r r0 hb (by omega))
    · push_neg at htouch
      exfalso
      obtain ⟨hA, hB, h0, h1, h2, h3⟩ := hb
      refine hnoC4 ⟨c0, hc0, r0, hr0, Or.inr (Or.inl ⟨hA, hB, ?_, ?_, ?_, ?_⟩)⟩
      · exact cell_old_of_not_new old grid c r c0 r0 (by omega) (by omega) hc hins h0
          (by intro hh; exact absurd hh.2 (by have := htouch 0 (by omega) hh.1; omega))
      · exact cell_old_of_not_new old grid c r c0 (r0+1) (by omega) (by omega) hc hins h1
          (by intro hh; exact absurd hh.2 (by have := htouch 1 (by omega) hh.1; omega))
      · exact cell_old_of_not_new old grid c r c0 (r0+2) (by omega) (by omega) hc hins h2
          (by intro hh; exact absurd hh.2 (by have := htouch 2 (by omega) hh.1; omega))
      · exact cell_old_of_not_new old grid c r c0 (r0+3) (by omega) (by omega) hc hins h3
          (by intro hh; exact absurd hh.2 (by have := htouch 3 (by omega) hh.1; omega))
  · -- up-right diagonal line
    by_cases htouch : ∃ t < 4, c0 + t = c ∧ r0 + t = r
    · obtain ⟨t, ht, hct, hrt⟩ := htouch
      exact Or.inr (Or.inr (Or.inl (ur_scan_complete grid c r c0 r0 t hc hr hb ht hct hrt)))
    · push_neg at htouch
      exfalso
      obtain ⟨hA, hB, h0, h1, h2, h3⟩ := hb
      refine hnoC4 ⟨c0, hc0, r0, hr0, Or.inr (Or.inr (Or.inl ⟨hA, hB, ?_, ?_, ?_, ?_⟩))⟩
      · exact cell_old_of_not_new old grid c r c0 r0 (by omega) (by omega) hc hins h0
          (by intro hh; exact absurd hh.2 (by have := htouch 0 (by omega) (by omega); omega))
      · exact cell_old_of_not_new old grid c r (c0+1) (r0+1) (by omega) (by omega) hc hins h1
          (by intro hh; exact absurd hh.2 (by have := htouch 1 (by omega) (by omega); omega))
      · exact cell_old_of_not_new old grid c r (c0+2) (r0+2) (by omega) (by omega) hc hins h2
          (by intro hh; exact absurd hh.2 (by have := htouch 2 (by omega) (by omega); omega))
      · exact cell_old_of_not_new old grid c r (c0+3) (r0+3) (by omega) (by omega) hc hins h3
          (by intro hh; exact absurd hh.2 (by have := htouch 3 (by omega) (by omega); omega))
  · -- up-left diagonal line
    by_cases htouch : ∃ t < 4, c0 - t = c ∧ r0 + t = r
    · obtain ⟨t, ht, hct, hrt⟩ := htouch
      exact Or.inr (Or.inr (Or.inr (ul_scan_complete grid c r c0 r0 t hc hr hb ht hct
        (by obtain ⟨h3c, _, _, _, _, _, _⟩ := hb; omega) hrt)))
    · push_neg at htouch
      exfalso
      obtain ⟨h3c, hc6, hB, h0, h1, h2, h3⟩ := hb
      refine hnoC4 ⟨c0, hc0, r0, hr0, Or.inr (Or.inr (Or.inr ⟨h3c, hc6, hB, ?_, ?_, ?_, ?_⟩))⟩
      · exact cell_old_of_not_new old grid c r c0 r0 (by omega) (by omega) hc hins h0
          (by intro hh; exact absurd hh.2 (by have := htouch 0 (by omega) (by omega); omega))
      · exact cell_old_of_not_new old grid c r (c0-1) (r0+1) (by omega) (by omega) hc hins h1
          (by intro hh; exact absurd hh.2 (by have := htouch 1 (by omega) (by omega); omega))
      · exact cell_old_of_not_new old grid c r (c0-2) (r0+2) (by omega) (by omega) hc hins h2
          (by intro hh; exact absurd hh.2 (by have := htouch 2 (by omega) (by omega); omega))
      · exact cell_old_of_not_new old grid c r (c0-3) (r0+3) (by omega) (by omega) hc hins h3
          (by intro hh; exact absurd hh.2 (by have := htouch 3 (by omega) (by omega); omega))


theorem NOT_TURN_BIT_eq_lor : NOT_TURN_BIT = 2 ^ 63 ||| (2 ^ 62 - 1) := by decide

theorem NOT_TURN_BIT_testBit_true (i : ℕ) (hi : i < 64) (hne : i ≠ 62) :
    NOT_TURN_BIT.testBit i = true := by
  rw [NOT_TURN_BIT_eq_lor, Nat.testBit_or, Nat.testBit_two_pow, Nat.testBit_two_pow_sub_one]
  rcases Nat.lt_or_ge i 62 with h | h
  · simp; omega
  · have : i = 63 := by omega
    simp [this]

theorem NOT_TURN_BIT_testBit_62 : NOT_TURN_BIT.testBit 62 = false := by decide

theorem masked_insert_testBit (T : ℕ) (off i : ℕ) (hoff : off ≤ 41) (hi64 : i < 64)
    (hi62 : i ≠ 62) :
    ((T ||| 1 <<< off) &&& NOT_TURN_BIT).testBit i = (T.testBit i || decide (i = off)) := by
  rw [Nat.testBit_and, Nat.testBit_or, NOT_TURN_BIT_testBit_true i hi64 hi62,
    Bool.and_true, Nat.shiftLeft_eq, one_mul, Nat.testBit_two_pow]
  congr 1
  simp only [decide_eq_decide]
  omega

theorem masked_insert_testBit_62 (T : ℕ) (off : ℕ) :
    ((T ||| 1 <<< off) &&& NOT_TURN_BIT).testBit 62 = false := by
  rw [Nat.testBit_and, NOT_TURN_BIT_testBit_62, Bool.and_false]

theorem lor_turn_testBit (O i : ℕ) (hi : i ≠ 62) :
    (O ||| TURN_BIT).testBit i = O.testBit i := by
  unfold TURN_BIT
  rw [Nat.testBit_or, Nat.testBit_two_pow]
  simp only [decide_eq_false (by omega : ¬(62 = i)), Bool.or_false]

theorem lor_turn_testBit_62 (O : ℕ) : (O ||| TURN_BIT).testBit 62 = true := by
  unfold TURN_BIT
  rw [Nat.testBit_or, Nat.testBit_two_pow]
  simp

theorem lor_win_testBit (T i : ℕ) (hi : i ≠ 61) :
    (T ||| WIN_BIT).testBit i = T.testBit i := by
  unfold WIN_BIT
  rw [Nat.testBit_or, Nat.testBit_two_pow]
  simp only [decide_eq_false (by omega : ¬(61 = i)), Bool.or_false]

theorem lor_win_testBit_61 (T : ℕ) : (T ||| WIN_BIT).testBit 61 = true := by
  unfold WIN_BIT
  rw [Nat.testBit_or, Nat.testBit_two_pow]
  simp

theorem cellB_lor_turn (O : ℕ) (x y : ℕ) (hx : x ≤ 6) (hy : y ≤ 5) :
    cellB (O ||| TURN_BIT) x y = cellB O x y := by
  unfold cellB
  exact lor_turn_testBit O _ (by omega)

theorem cellB_lor_win (T : ℕ) (x y : ℕ) (hx : x ≤ 6) (hy : y ≤ 5) :
    cellB (T ||| WIN_BIT) x y = cellB T x y := by
  unfold cellB
  exact lor_win_testBit T _ (by omega)

theorem horizLine_congr (a b : ℕ) (c r : ℕ)
    (h : ∀ x y, x ≤ 6 → y ≤ 5 → cellB a x y = cellB b x y) :
    horizLine a c r ↔ horizLine b c r := by
  unfold horizLine
  constructor <;> rintro ⟨h1, h2, h3, h4, h5, h6⟩ <;> refine ⟨h1, h2, ?_, ?_, ?_, ?_⟩ <;>
    first
      | (rw [← h _ _ (by omega) (by omega)]; assumption)
      | (rw [h _ _ (by omega) (by omega)] at *; assumption)

theorem vertLine_congr (a b : ℕ) (c r : ℕ)
    (h : ∀ x y, x ≤ 6 → y ≤ 5 → cellB a x y = cellB b x y) :
    vertLine a c r ↔ vertLine b c r := by
  unfold vertLine
  constructor <;> rintro ⟨h1, h2, h3, h4, h5, h6⟩ <;> refine ⟨h1, h2, ?_, ?_, ?_, ?_⟩ <;>
    first
      | (rw [← h _ _ (by omega) (by omega)]; assumption)
      | (rw [h _ _ (by omega) (by omega)] at *; assumption)

theorem diagURLine_congr (a b : ℕ) (c r : ℕ)
    (h : ∀ x y, x ≤ 6 → y ≤ 5 → cellB a x y = cellB b x y) :
    diagURLine a c r ↔ diagURLine b c r := by
  unfold diagURLine
  constructor <;> rintro ⟨h1, h2, h3, h4, h5, h6⟩ <;> refine ⟨h1, h2, ?_, ?_, ?_, ?_⟩ <;>
    first
      | (rw [← h _ _ (by omega) (by omega)]; assumption)
      | (rw [h _ _ (by omega) (by omega)] at *; assumption)

theorem diagULLine_congr (a b : ℕ) (c r : ℕ)
    (h : ∀ x y, x ≤ 6 → y ≤ 5 → cellB a x y = cellB b x y) :
    diagULLine a c r ↔ diagULLine b c r := by
  unfold diagULLine
  constructor <;> rintro ⟨h0, h1, h2, h3, h4, h5, h6⟩ <;> refine ⟨h0, h1, h2, ?_, ?_, ?_, ?_⟩ <;>
    first
      | (rw [← h _ _ (by omega) (by omega)]; assumption)
      | (rw [h _ _ (by omega) (by omega)] at *; assumption)

theorem hasC4_congr (a b : ℕ)
    (h : ∀ x y, x ≤ 6 → y ≤ 5 → cellB a x y = cellB b x y) :
    hasC4 a ↔ hasC4 b := by
  unfold hasC4
  refine exists_congr fun c => and_congr_right fun hc => exists_congr fun r =>
    and_congr_right fun hr => ?_
  rw [horizLine_congr a b c r h, vertLine_congr a b c r h, diagURLine_congr a b c r h,
    diagULLine_congr a b c r h]

theorem hasC4_lor_win (T : ℕ) : hasC4 (T ||| WIN_BIT) ↔ hasC4 T :=
  hasC4_congr _ _ fun x y hx hy => cellB_lor_win T x y hx hy

theorem hasC4_lor_turn (O : ℕ) : hasC4 (O ||| TURN_BIT) ↔ hasC4 O :=
  hasC4_congr _ _ fun x y hx hy => cellB_lor_turn O x y hx hy




theorem InvSym.swap {T O : ℕ} {occ : Fin 7 → ℕ} (h : InvSym T O occ) : InvSym O T occ := by
  obtain ⟨h1, h2, h3, h4, h5, h6⟩ := h
  refine ⟨h1, ?_, ?_, ?_, h6, h5⟩
  · intro c r hr
    rw [Bool.or_comm]
    exact h2 c r hr
  · intro c r hr hand
    exact h3 c r hr ⟨hand.2, hand.1⟩
  · cases hO : O.testBit 62 <;> cases hT : T.testBit 62 <;> rw [hO, hT] at h4 <;>
      first | decide | exact absurd h4 (by decide)

theorem insert_cell (T : ℕ) (occ : Fin 7 → ℕ) (cF : Fin 7) (hocc5 : occ cF ≤ 5)
    (x y : ℕ) (hx : x ≤ 6) (hy : y ≤ 5) :
    cellB ((T ||| 1 <<< (7 * occ cF + 6 - (cF : ℕ))) &&& NOT_TURN_BIT) x y
      = (cellB T x y || decide (x = (cF : ℕ) ∧ y = occ cF)) := by
  have hfin : (cF : ℕ) ≤ 6 := by omega
  exact cellB_insert T _ (cF : ℕ) (occ cF) x y hx hy
    (fun i hi => masked_insert_testBit T _ i (by omega) (by omega) (by omega)) hfin

theorem insert_makes_iff (gOcc : Game) (T : ℕ) (occ : Fin 7 → ℕ) (cF : Fin 7)
    (hg : occZ gOcc ((cF : ℕ) : ℤ) = ((occ cF : ℕ) : ℤ) + 1) (hocc5 : occ cF ≤ 5)
    (hnoC4 : ¬ hasC4 T)
    (hempty : ∀ r', occ cF ≤ r' → r' ≤ 5 → cellB T (cF : ℕ) r' = false) :
    (makes_new_connect4 gOcc ((cF : ℕ) : ℤ) ((T ||| 1 <<< (7 * occ cF + 6 - (cF : ℕ))) &&& NOT_TURN_BIT) = true
      ↔ hasC4 ((T ||| 1 <<< (7 * occ cF + 6 - (cF : ℕ))) &&& NOT_TURN_BIT)) := by
  have hfin : (cF : ℕ) ≤ 6 := by omega
  constructor
  · exact makes_new_sound gOcc _ (cF : ℕ) (occ cF) hfin hocc5 hg
  · intro h4
    refine makes_new_complete gOcc T _ (cF : ℕ) (occ cF) hfin hocc5 hg
      (fun i hi => masked_insert_testBit T _ i (by omega) (by omega) (by omega)) hnoC4 ?_ h4
    intro r' hr1 hr2
    rw [insert_cell T occ cF hocc5 _ _ hfin hr2]
    rw [hempty r' (by omega) hr2]
    simp only [Bool.false_or, decide_eq_false_iff_not]
    simp
    omega


theorem insert_invSym (T O : ℕ) (occ : Fin 7 → ℕ) (cF : Fin 7)
    (hinv : InvSym T O occ) (hocclt : occ cF < 6)
    (hwT : T.testBit 61 = false) (hwO : O.testBit 61 = false)
    (wb : Bool)
    (hwb : wb = true ↔ hasC4 ((T ||| 1 <<< (7 * occ cF + 6 - (cF : ℕ))) &&& NOT_TURN_BIT)) :
    InvSym (if wb then ((T ||| 1 <<< (7 * occ cF + 6 - (cF : ℕ))) &&& NOT_TURN_BIT ||| WIN_BIT)
            else ((T ||| 1 <<< (7 * occ cF + 6 - (cF : ℕ))) &&& NOT_TURN_BIT))
      (O ||| TURN_BIT) (Function.update occ cF (occ cF + 1)) := by
  obtain ⟨h1, h2, h3, h4, h5, h6⟩ := hinv
  have hocc5 : occ cF ≤ 5 := by omega
  have hfin : (cF : ℕ) ≤ 6 := by omega
  have hoff41 : 7 * occ cF + 6 - (cF : ℕ) ≤ 41 := by omega
  set T1 := (T ||| 1 <<< (7 * occ cF + 6 - (cF : ℕ))) &&& NOT_TURN_BIT with hT1def
  set Top := if wb then T1 ||| WIN_BIT else T1 with hTopdef
  have hcellT1 : ∀ x y, x ≤ 6 → y ≤ 5 →
      cellB T1 x y = (cellB T x y || decide (x = (cF : ℕ) ∧ y = occ cF)) :=
    fun x y hx hy => insert_cell T occ cF hocc5 x y hx hy
  have hcellTop : ∀ x y, x ≤ 6 → y ≤ 5 →
      cellB Top x y = (cellB T x y || decide (x = (cF : ℕ) ∧ y = occ cF)) := by
    intro x y hx hy
    cases wb
    · exact hcellT1 x y hx hy
    · rw [hTopdef, if_pos rfl, cellB_lor_win T1 x y hx hy]
      exact hcellT1 x y hx hy
  have hTop62 : Top.testBit 62 = false := by
    cases wb
    · exact masked_insert_testBit_62 T _
    · rw [hTopdef, if_pos rfl, lor_win_testBit T1 62 (by omega)]
      exact masked_insert_testBit_62 T _
  have hT1_61 : T1.testBit 61 = false := by
    rw [hT1def, masked_insert_testBit T _ 61 hoff41 (by omega) (by omega), hwT]
    simp only [Bool.false_or, decide_eq_false_iff_not]
    omega
  have hnewT : cellB T (cF : ℕ) (occ cF) = false ∧ cellB O (cF : ℕ) (occ cF) = false := by
    have hp := h2 cF (occ cF) hocc5
    have : ¬ ((cellB T (cF : ℕ) (occ cF) || cellB O (cF : ℕ) (occ cF)) = true) := by
      rw [hp]; omega
    constructor
    · cases hb : cellB T (cF : ℕ) (occ cF)
      · rfl
      · exact absurd (by rw [hb]; simp) this
    · cases hb : cellB O (cF : ℕ) (occ cF)
      · rfl
      · exact absurd (by rw [hb, Bool.or_true]) this
  refine ⟨?_, ?_, ?_, ?_, ?_, ?_⟩
  · intro c
    by_cases hc : c = cF
    · subst hc; rw [Function.update_same]; omega
    · rw [Function.update_noteq hc]; exact h1 c
  · intro x y hy
    rw [hcellTop (x : ℕ) y (by omega) hy, cellB_lor_turn O (x : ℕ) y (by omega) hy]
    have hp := h2 x y hy
    rw [Bool.or_eq_true] at hp
    simp only [Bool.or_eq_true, decide_eq_true_eq]
    by_cases hx : x = cF
    · subst hx
      rw [Function.update_same]
      constructor
      · rintro ((hT | ⟨_, rfl⟩) | hO)
        · have := hp.mp (Or.inl hT); omega
        · omega
        · have := hp.mp (Or.inr hO); omega
      · intro hlt
        rcases Nat.lt_or_ge y (occ x) with hlt2 | hge
        · rcases hp.mpr hlt2 with hT | hO
          · exact Or.inl (Or.inl hT)
          · exact Or.inr hO
        · exact Or.inl (Or.inr ⟨rfl, by omega⟩)
    · rw [Function.update_noteq hx]
      have hxne : ¬((x : ℕ) = (cF : ℕ) ∧ y = occ cF) := by
        intro hh
        exact hx (Fin.val_injective hh.1)
      constructor
      · rintro ((hT | hh) | hO)
        · exact hp.mp (Or.inl hT)
        · exact absurd hh hxne
        · exact hp.mp (Or.inr hO)
      · intro hlt
        rcases hp.mpr hlt with hT | hO
        · exact Or.inl (Or.inl hT)
        · exact Or.inr hO
  · intro x y hy hand
    rw [hcellTop (x : ℕ) y (by omega) hy, cellB_lor_turn O (x : ℕ) y (by omega) hy] at hand
    obtain ⟨handT, handO⟩ := hand
    rw [Bool.or_eq_true] at handT
    rcases handT with hT | hh
    · exact h3 x y hy ⟨hT, handO⟩
    · rw [decide_eq_true_eq] at hh
      have hx : x = cF := Fin.val_injective hh.1
      subst hx
      rw [hh.2] at handO
      rw [handO] at hnewT
      exact absurd hnewT.2 (by decide)
  · rw [hTop62, lor_turn_testBit_62]
    decide
  · cases hwbv : wb
    · rw [hwbv] at hwb hTopdef
      have : Top = T1 := by rw [hTopdef]; simp
      rw [this, hT1_61]
      constructor
      · intro hh; exact absurd hh (by decide)
      · intro hh
        exact absurd (hwb.mpr hh) (by decide)
    · rw [hwbv] at hwb hTopdef
      have : Top = T1 ||| WIN_BIT := by rw [hTopdef]; simp
      rw [this, lor_win_testBit_61, hasC4_lor_win]
      simp only [true_iff]
      exact hwb.mp rfl
  · rw [lor_turn_testBit O 61 (by omega), hasC4_lor_turn, hwO]
    constructor
    · intro hh; exact absurd hh (by decide)
    · intro hh
      have := h6.mpr hh
      rw [hwO] at this
      exact absurd this (by decide)



theorem play_eq_playStep (g : Game) (p : ℤ) (cF : Fin 7)
    (hp : p = PLAYER_A ∨ p = PLAYER_B) (hw : winner g < 0)
    (hocc : g.cols_occupation cF < 6) (hturn : (playerGridOf g p).testBit 62 = true) :
    play g p ((cF : ℕ) : ℤ) = playStep g p cF := by
  have hp2 : ¬(p ≠ PLAYER_A ∧ p ≠ PLAYER_B) := by
    rcases hp with h | h <;> simp [h]
  have hcol : ¬(((cF : ℕ) : ℤ) < 0 ∨ 7 ≤ ((cF : ℕ) : ℤ)) := by
    have := cF.isLt; omega
  have ht : (if p = PLAYER_A then g.gridA else g.gridB).testBit 62 = true := hturn
  rw [play, playStep, if_neg hp2, dif_neg hcol]
  simp only [Int.toNat_natCast, Fin.eta]
  rw [if_neg (by omega : ¬ (0 ≤ winner g)), if_neg (by omega : ¬ (6 ≤ g.cols_occupation cF))]
  rw [if_neg (by simp [ht])]
  rw [show (compute_offset ((cF : ℕ) : ℤ) ((g.cols_occupation cF : ℕ) : ℤ)).toNat
      = 7 * g.cols_occupation cF + 6 - (cF : ℕ) from by
    unfold compute_offset; have := cF.isLt; omega]

theorem play_accepted_facts (g : Game) (p c : ℤ) (hacc : 0 ≤ (play g p c).1) :
    (p = PLAYER_A ∨ p = PLAYER_B) ∧ winner g < 0 ∧
    ∃ cF : Fin 7, c = ((cF : ℕ) : ℤ) ∧ g.cols_occupation cF < 6 ∧
      (playerGridOf g p).testBit 62 = true := by
  unfold play at hacc
  by_cases h1 : p ≠ PLAYER_A ∧ p ≠ PLAYER_B
  · rw [if_pos h1] at hacc; norm_num [ARG_ERROR] at hacc
  · rw [if_neg h1] at hacc
    have hp : p = PLAYER_A ∨ p = PLAYER_B := by tauto
    by_cases h2 : c < 0 ∨ 7 ≤ c
    · rw [dif_pos h2] at hacc; norm_num [ARG_ERROR] at hacc
    · rw [dif_neg h2] at hacc
      by_cases h3 : 0 ≤ winner g
      · rw [if_pos h3] at hacc; norm_num at hacc
      · rw [if_neg h3] at hacc
        by_cases h4 : 6 ≤ g.cols_occupation ⟨c.toNat, by omega⟩
        · rw [if_pos h4] at hacc; norm_num at hacc
        · rw [if_neg h4] at hacc
          by_cases h5 : (if p = PLAYER_A then g.gridA else g.gridB).testBit 62 = true
          · refine ⟨hp, by omega, ⟨c.toNat, by omega⟩, ?_, ?_, h5⟩
            · show c = ((c.toNat : ℕ) : ℤ)
              omega
            · push_neg at h4
              exact h4
          · rw [if_pos (by simp [h5])] at hacc
            norm_num at hacc

theorem winner_neg_flags (g : Game) (hw : winner g < 0) :
    g.gridA.testBit 61 = false ∧ g.gridB.testBit 61 = false := by
  unfold winner at hw
  split_ifs at hw with hA hB hD
  · norm_num [PLAYER_A] at hw
  · norm_num [PLAYER_B] at hw
  · norm_num [DRAW] at hw
  · exact ⟨by simpa using hA, by simpa using hB⟩

theorem occZ_update_self (gA gB : ℕ) (occ : Fin 7 → ℕ) (cF : Fin 7) :
    occZ ⟨gA, gB, Function.update occ cF (occ cF + 1)⟩ ((cF : ℕ) : ℤ)
      = ((occ cF : ℕ) : ℤ) + 1 := by
  unfold occZ
  rw [dif_pos (by have := cF.isLt; omega)]
  simp only [Int.toNat_natCast, Fin.eta]
  rw [Function.update_same]
  push_cast
  ring

theorem inv_count (g : Game) (hinv : Inv g) (x : Fin 7) :
    ((Finset.range 6).filter
        (fun r => (cellB g.gridA (x : ℕ) r || cellB g.gridB (x : ℕ) r) = true)).card
      = g.cols_occupation x := by
  obtain ⟨h1, h2, h3, h4, h5, h6⟩ := hinv
  have : (Finset.range 6).filter
      (fun r => (cellB g.gridA (x : ℕ) r || cellB g.gridB (x : ℕ) r) = true)
      = Finset.range (g.cols_occupation x) := by
    apply Finset.ext
    intro r
    simp only [Finset.mem_filter, Finset.mem_range]
    constructor
    · rintro ⟨hr6, hcell⟩
      exact (h2 x r (by omega)).mp hcell
    · intro hr
      have hx1 := h1 x
      exact ⟨by omega, (h2 x r (by omega)).mpr hr⟩
  rw [this, Finset.card_range]


theorem packed_empty_above (T O : ℕ) (occ : Fin 7 → ℕ) (cF : Fin 7)
    (h2 : ∀ (c : Fin 7) (r : ℕ), r ≤ 5 →
      ((cellB T (c : ℕ) r || cellB O (c : ℕ) r) = true ↔ r < occ c)) :
    ∀ r', occ cF ≤ r' → r' ≤ 5 → cellB T (cF : ℕ) r' = false := by
  intro r' h1' h2'
  have hp := h2 cF r' h2'
  cases hb : cellB T (cF : ℕ) r'
  · rfl
  · exfalso
    have hor : (cellB T (cF : ℕ) r' || cellB O (cF : ℕ) r') = true := by rw [hb]; simp
    have := hp.mp hor
    omega

theorem noC4_of_flag_false (T : ℕ) (h5 : T.testBit 61 = true ↔ hasC4 T)
    (hw : T.testBit 61 = false) : ¬ hasC4 T := by
  intro h
  have := h5.mpr h
  rw [hw] at this
  exact absurd this (by decide)

theorem playStep_main (g : Game) (p : ℤ) (cF : Fin 7) (hinv : Inv g)
    (hp : p = PLAYER_A ∨ p = PLAYER_B) (hw : winner g < 0)
    (hocc : g.cols_occupation cF < 6) (hturn : (playerGridOf g p).testBit 62 = true) :
    Inv (playStep g p cF).2 ∧
    0 ≤ (playStep g p cF).1 ∧
    ((playStep g p cF).1 = 1 ↔ hasC4 (playerGridOf (playStep g p cF).2 p)) ∧
    (playStep g p cF).2.gridA.testBit 62 = (!g.gridA.testBit 62) ∧
    (playStep g p cF).2.gridB.testBit 62 = (!g.gridB.testBit 62) := by
  obtain ⟨hwA, hwB⟩ := winner_neg_flags g hw
  rcases hp with rfl | rfl
  · -- the mover is PLAYER_A, whose grid is gridA
    have hturnA : g.gridA.testBit 62 = true := hturn
    have hinv' := hinv
    obtain ⟨h1, h2, h3, h4, h5, h6⟩ := hinv'
    have hBturn : g.gridB.testBit 62 = false := by
      rw [hturnA] at h4
      cases hb : g.gridB.testBit 62
      · rfl
      · rw [hb] at h4; exact absurd h4 (by decide)
    have hnoC4 : ¬ hasC4 g.gridA := noC4_of_flag_false _ h5 hwA
    have hempty := packed_empty_above g.gridA g.gridB g.cols_occupation cF h2
    rw [playStep]
    rw [if_pos (rfl : PLAYER_A = PLAYER_A), if_pos (rfl : PLAYER_A = PLAYER_A),
        if_pos (rfl : PLAYER_A = PLAYER_A)]
    have hiff := insert_makes_iff
      ⟨(g.gridA ||| 1 <<< (7 * g.cols_occupation cF + 6 - (cF : ℕ))) &&& NOT_TURN_BIT,
        (g.gridB ||| TURN_BIT),
        Function.update g.cols_occupation cF (g.cols_occupation cF + 1)⟩
      g.gridA g.cols_occupation cF (occZ_update_self _ _ _ _) (by omega) hnoC4 hempty
    by_cases hm : makes_new_connect4
        ⟨(g.gridA ||| 1 <<< (7 * g.cols_occupation cF + 6 - (cF : ℕ))) &&& NOT_TURN_BIT,
          (g.gridB ||| TURN_BIT),
          Function.update g.cols_occupation cF (g.cols_occupation cF + 1)⟩
        ((cF : ℕ) : ℤ)
        ((g.gridA ||| 1 <<< (7 * g.cols_occupation cF + 6 - (cF : ℕ))) &&& NOT_TURN_BIT) = true
    · rw [if_pos hm, if_pos (rfl : PLAYER_A = PLAYER_A)]
      have hC4 : hasC4 ((g.gridA ||| 1 <<< (7 * g.cols_occupation cF + 6 - (cF : ℕ)))
          &&& NOT_TURN_BIT) := hiff.mp hm
      have hInvS := insert_invSym g.gridA g.gridB g.cols_occupation cF hinv hocc hwA hwB
        true (by simpa using hC4)
      rw [if_pos rfl] at hInvS
      refine ⟨hInvS, by norm_num, ?_, ?_, ?_⟩
      · simp only [playerGridOf, eq_self_iff_true, if_true]
        rw [hasC4_lor_win]
        simp [hC4]
      · show ((_ ||| WIN_BIT).testBit 62) = _
        rw [lor_win_testBit _ 62 (by omega), masked_insert_testBit_62, hturnA]
        decide
      · show ((g.gridB ||| TURN_BIT).testBit 62) = _
        rw [lor_turn_testBit_62, hBturn]
        decide
    · rw [if_neg hm]
      have hnoC4new : ¬ hasC4 ((g.gridA ||| 1 <<< (7 * g.cols_occupation cF + 6 - (cF : ℕ)))
          &&& NOT_TURN_BIT) := fun h => hm (hiff.mpr h)
      have hInvS := insert_invSym g.gridA g.gridB g.cols_occupation cF hinv hocc hwA hwB
        false (by simpa using hnoC4new)
      rw [if_neg (by decide)] at hInvS
      by_cases hd : winner
          ⟨(g.gridA ||| 1 <<< (7 * g.cols_occupation cF + 6 - (cF : ℕ))) &&& NOT_TURN_BIT,
            (g.gridB ||| TURN_BIT),
            Function.update g.cols_occupation cF (g.cols_occupation cF + 1)⟩ = DRAW
      · rw [if_pos hd]
        refine ⟨hInvS, by norm_num, ?_, ?_, ?_⟩
        · constructor
          · intro hh; exact absurd hh (by norm_num)
          · intro hh
            simp only [playerGridOf, eq_self_iff_true, if_true] at hh
            exact absurd hh hnoC4new
        · show ((_ &&& NOT_TURN_BIT).testBit 62) = _
          rw [masked_insert_testBit_62, hturnA]
          decide
        · show ((g.gridB ||| TURN_BIT).testBit 62) = _
          rw [lor_turn_testBit_62, hBturn]
          decide
      · rw [if_neg hd]
        refine ⟨hInvS, by norm_num, ?_, ?_, ?_⟩
        · constructor
          · intro hh; exact absurd hh (by norm_num)
          · intro hh
            simp only [playerGridOf, eq_self_iff_true, if_true] at hh
            exact absurd hh hnoC4new
        · show ((_ &&& NOT_TURN_BIT).testBit 62) = _
          rw [masked_insert_testBit_62, hturnA]
          decide
        · show ((g.gridB ||| TURN_BIT).testBit 62) = _
          rw [lor_turn_testBit_62, hBturn]
          decide
  · -- the mover is PLAYER_B, whose grid is gridB
    have hturnB : g.gridB.testBit 62 = true := hturn
    have hinv' := hinv
    obtain ⟨h1, h2, h3, h4, h5, h6⟩ := hinv'
    have hAturn : g.gridA.testBit 62 = false := by
      rw [hturnB] at h4
      cases hb : g.gridA.testBit 62
      · rfl
      · rw [hb] at h4; exact absurd h4 (by decide)
    have hswap : InvSym g.gridB g.gridA g.cols_occupation := InvSym.swap hinv
    have hnoC4 : ¬ hasC4 g.gridB := noC4_of_flag_false _ h6 hwB
    have hempty := packed_empty_above g.gridB g.gridA g.cols_occupation cF
      (fun c r hr => by rw [Bool.or_comm]; exact h2 c r hr)
    rw [playStep]
    rw [if_neg (by decide : ¬ (PLAYER_B = PLAYER_A)),
        if_neg (by decide : ¬ (PLAYER_B = PLAYER_A)),
        if_neg (by decide : ¬ (PLAYER_B = PLAYER_A))]
    have hiff := insert_makes_iff
      ⟨(g.gridA ||| TURN_BIT),
        (g.gridB ||| 1 <<< (7 * g.cols_occupation cF + 6 - (cF : ℕ))) &&& NOT_TURN_BIT,
        Function.update g.cols_occupation cF (g.cols_occupation cF + 1)⟩
      g.gridB g.cols_occupation cF (occZ_update_self _ _ _ _) (by omega) hnoC4 hempty
    by_cases hm : makes_new_connect4
        ⟨(g.gridA ||| TURN_BIT),
          (g.gridB ||| 1 <<< (7 * g.cols_occupation cF + 6 - (cF : ℕ))) &&& NOT_TURN_BIT,
          Function.update g.cols_occupation cF (g.cols_occupation cF + 1)⟩
        ((cF : ℕ) : ℤ)
        ((g.gridB ||| 1 <<< (7 * g.cols_occupation cF + 6 - (cF : ℕ))) &&& NOT_TURN_BIT) = true
    · rw [if_pos hm, if_neg (by decide : ¬ (PLAYER_B = PLAYER_A))]
      have hC4 : hasC4 ((g.gridB ||| 1 <<< (7 * g.cols_occupation cF + 6 - (cF : ℕ)))
          &&& NOT_TURN_BIT) := hiff.mp hm
      have hInvS := insert_invSym g.gridB g.gridA g.cols_occupation cF hswap hocc hwB hwA
        true (by simpa using hC4)
      rw [if_pos rfl] at hInvS
      refine ⟨InvSym.swap hInvS, by norm_num, ?_, ?_, ?_⟩
      · simp only [playerGridOf, if_neg (by decide : ¬ (PLAYER_B = PLAYER_A))]
        rw [hasC4_lor_win]
        simp [hC4]
      · show ((g.gridA ||| TURN_BIT).testBit 62) = _
        rw [lor_turn_testBit_62, hAturn]
        decide
      · show ((_ ||| WIN_BIT).testBit 62) = _
        rw [lor_win_testBit _ 62 (by omega), masked_insert_testBit_62, hturnB]
        decide
    · rw [if_neg hm]
      have hnoC4new : ¬ hasC4 ((g.gridB ||| 1 <<< (7 * g.cols_occupation cF + 6 - (cF : ℕ)))
          &&& NOT_TURN_BIT) := fun h => hm (hiff.mpr h)
      have hInvS := insert_invSym g.gridB g.gridA g.cols_occupation cF hswap hocc hwB hwA
        false (by simpa using hnoC4new)
      rw [if_neg (by decide)] at hInvS
      by_cases hd : winner
          ⟨(g.gridA ||| TURN_BIT),
            (g.gridB ||| 1 <<< (7 * g.cols_occupation cF + 6 - (cF : ℕ))) &&& NOT_TURN_BIT,
            Function.update g.cols_occupation cF (g.cols_occupation cF + 1)⟩ = DRAW
      · rw [if_pos hd]
        refine ⟨InvSym.swap hInvS, by norm_num, ?_, ?_, ?_⟩
        · constructor
          · intro hh; exact absurd hh (by norm_num)
          · intro hh
            simp only [playerGridOf, if_neg (by decide : ¬ (PLAYER_B = PLAYER_A))] at hh
            exact absurd hh hnoC4new
        · show ((g.gridA ||| TURN_BIT).testBit 62) = _
          rw [lor_turn_testBit_62, hAturn]
          decide
        · show ((_ &&& NOT_TURN_BIT).testBit 62) = _
          rw [masked_insert_testBit_62, hturnB]
          decide
      · rw [if_neg hd]
        refine ⟨InvSym.swap hInvS, by norm_num, ?_, ?_, ?_⟩
        · constructor
          · intro hh; exact absurd hh (by norm_num)
          · intro hh
            simp only [playerGridOf, if_neg (by decide : ¬ (PLAYER_B = PLAYER_A))] at hh
            exact absurd hh hnoC4new
        · show ((g.gridA ||| TURN_BIT).testBit 62) = _
          rw [lor_turn_testBit_62, hAturn]
          decide
        · show ((_ &&& NOT_TURN_BIT).testBit 62) = _
          rw [masked_insert_testBit_62, hturnB]
          decide


set_option maxRecDepth 40000 in
theorem inv_game_init : Inv game_init := by
  unfold Inv InvSym game_init
  refine ⟨by decide, ?_, by decide, by decide, by decide, by decide⟩
  intro c r hr
  have hA : cellB TURN_BIT (c : ℕ) r = false := by
    unfold cellB TURN_BIT
    rw [Nat.testBit_two_pow]
    simp only [decide_eq_false_iff_not]
    have := c.isLt
    omega
  have hB : cellB 0 (c : ℕ) r = false := by
    unfold cellB
    simp
  show (cellB TURN_BIT (c : ℕ) r || cellB 0 (c : ℕ) r) = true ↔ r < 0
  rw [hA, hB]
  constructor
  · intro h; exact absurd h (by decide)
  · omega

theorem inv_reachable (g : Game) (h : Reachable g) : Inv g := by
  induction h with
  | init => exact inv_game_init
  | step p c hr hacc ih =>
      obtain ⟨hp, hw, cF, hc, hocc, hturn⟩ := play_accepted_facts _ p c hacc
      rw [hc, play_eq_playStep _ p cF hp hw hocc hturn]
      exact (playStep_main _ p cF ih hp hw hocc hturn).1

theorem play_finished_rejects (g : Game) (hwin : 0 ≤ winner g) (p c : ℤ) :
    (play g p c).1 < 0 := by
  by_contra hcon
  push_neg at hcon
  obtain ⟨_, hw, _⟩ := play_accepted_facts g p c hcon
  omega


/-- C4: every state reachable from game_init by a sequence of accepted play
calls satisfies: each cell bit is set in at most one of the two grids; each
column's occupancy counter equals the number of set cell bits in that column
across both grids and is at most 6; exactly one grid carries the turn flag
(gridA carries it exactly when gridB does not), and it alternates after each
accepted move (both turn bits flip); and once a win flag is set, no further
play call is accepted. -/
theorem reachable_state_invariants (g : Game) (h : Reachable g) :
    (∀ (x : Fin 7) (y : ℕ), y ≤ 5 →
        ¬(cellB g.gridA (x : ℕ) y = true ∧ cellB g.gridB (x : ℕ) y = true)) ∧
    (∀ x : Fin 7,
        ((Finset.range 6).filter
          (fun r => (cellB g.gridA (x : ℕ) r || cellB g.gridB (x : ℕ) r) = true)).card
          = g.cols_occupation x ∧ g.cols_occupation x ≤ 6) ∧
    (g.gridA.testBit 62 = !g.gridB.testBit 62) ∧
    (∀ p c, 0 ≤ (play g p c).1 →
        (play g p c).2.gridA.testBit 62 = (!g.gridA.testBit 62) ∧
        (play g p c).2.gridB.testBit 62 = (!g.gridB.testBit 62)) ∧
    ((g.gridA.testBit 61 = true ∨ g.gridB.testBit 61 = true) → ∀ p c, (play g p c).1 < 0) := by
  have hinv := inv_reachable g h
  refine ⟨hinv.2.2.1, ?_, hinv.2.2.2.1, ?_, ?_⟩
  · intro x
    exact ⟨inv_count g hinv x, hinv.1 x⟩
  · intro p c hacc
    obtain ⟨hp, hw, cF, hc, hocc, hturn⟩ := play_accepted_facts g p c hacc
    rw [hc, play_eq_playStep g p cF hp hw hocc hturn]
    have hmain := playStep_main g p cF hinv hp hw hocc hturn
    exact ⟨hmain.2.2.2.1, hmain.2.2.2.2⟩
  · intro hflag p c
    have hwge : 0 ≤ winner g := by
      unfold winner
      split_ifs with hA hB
      · norm_num [PLAYER_A]
      · norm_num [PLAYER_B]
      · norm_num [DRAW]
      · rcases hflag with hf | hf
        · exact absurd hf hA
        · exact absurd hf hB
    exact play_finished_rejects g hwge p c

/-- C2: for every reachable board position and every accepted move, play
returns Win (1) exactly when the move completes four same-player collinear
disks (horizontal, vertical, or either diagonal) in the mover's grid — and
never earlier: before the accepted move, the mover's grid contains no four
collinear disks at all. -/
theorem play_win_iff_connect4 (g : Game) (h : Reachable g) (p c : ℤ)
    (hacc : 0 ≤ (play g p c).1) :
    ((play g p c).1 = 1 ↔ hasC4 (playerGridOf (play g p c).2 p)) ∧
    ¬ hasC4 (playerGridOf g p) := by
  have hinv := inv_reachable g h
  obtain ⟨hp, hw, cF, hc, hocc, hturn⟩ := play_accepted_facts g p c hacc
  obtain ⟨hwA, hwB⟩ := winner_neg_flags g hw
  constructor
  · rw [hc, play_eq_playStep g p cF hp hw hocc hturn]
    exact (playStep_main g p cF hinv hp hw hocc hturn).2.2.1
  · rcases hp with rfl | rfl
    · exact noC4_of_flag_false _ hinv.2.2.2.2.1 hwA
    · exact noC4_of_flag_false _ hinv.2.2.2.2.2 hwB

set_option maxRecDepth 40000 in
/-- Witness for play_win_iff_connect4 at the first accepted move from the
initial state. -/
theorem play_win_iff_connect4_witness :
    0 ≤ (play game_init PLAYER_A 0).1 ∧
    (((play game_init PLAYER_A 0).1 = 1
        ↔ hasC4 (playerGridOf (play game_init PLAYER_A 0).2 PLAYER_A)) ∧
      ¬ hasC4 (playerGridOf game_init PLAYER_A)) :=
  ⟨by decide, play_win_iff_connect4 game_init Reachable.init PLAYER_A 0 (by decide)⟩

/-- Witness for reachable_state_invariants at the initial state. -/
theorem reachable_state_invariants_witness :
    game_init.gridA.testBit 62 = !game_init.gridB.testBit 62 :=
  (reachable_state_invariants game_init Reachable.init).2.2.1


/-! ## Tree-layer lemmas -/

theorem TreeCoherent.accept {t : Tree} (h : TreeCoherent t) (i : Fin 7) (c : Tree)
    (hc : t.child i = some c) : 0 ≤ (play_auto t.state ((i : ℕ) : ℤ)).1 := by
  cases h with | mk h1 h2 h3 => exact h1 i c hc

theorem TreeCoherent.childState {t : Tree} (h : TreeCoherent t) (i : Fin 7) (c : Tree)
    (hc : t.child i = some c) : c.state = (play_auto t.state ((i : ℕ) : ℤ)).2 := by
  cases h with | mk h1 h2 h3 => exact h2 i c hc

theorem TreeCoherent.childCoherent {t : Tree} (h : TreeCoherent t) (i : Fin 7) (c : Tree)
    (hc : t.child i = some c) : TreeCoherent c := by
  cases h with | mk h1 h2 h3 => exact h3 i c hc

theorem child_setChild (t : Tree) (i j : Fin 7) (x : Option Tree) :
    (t.setChild i x).child j = if j = i then x else t.child j := by
  cases t
  rcases i with ⟨iv, hi⟩
  rcases j with ⟨jv, hj⟩
  interval_cases iv <;> interval_cases jv <;>
    simp [Tree.setChild, Tree.child, Fin.ext_iff] <;>
    rw [if_neg (by decide)]

theorem state_setChild (t : Tree) (i : Fin 7) (x : Option Tree) :
    (t.setChild i x).state = t.state := by
  cases t; rcases i with ⟨iv, hi⟩
  interval_cases iv <;> rfl

theorem wins_setChild (t : Tree) (i : Fin 7) (x : Option Tree) :
    (t.setChild i x).nb_wins = t.nb_wins := by
  cases t; rcases i with ⟨iv, hi⟩
  interval_cases iv <;> rfl

theorem visits_setChild (t : Tree) (i : Fin 7) (x : Option Tree) :
    (t.setChild i x).nb_visits = t.nb_visits := by
  cases t; rcases i with ⟨iv, hi⟩
  interval_cases iv <;> rfl

theorem state_addStats (t : Tree) (dw dv : ℕ) : (t.addStats dw dv).state = t.state := by
  cases t; rfl

theorem child_addStats (t : Tree) (dw dv : ℕ) (j : Fin 7) :
    (t.addStats dw dv).child j = t.child j := by
  cases t; rcases j with ⟨jv, hj⟩
  interval_cases jv <;> rfl

theorem visits_addStats (t : Tree) (dw dv : ℕ) :
    (t.addStats dw dv).nb_visits = t.nb_visits + dv := by
  cases t; rfl

theorem wins_addStats (t : Tree) (dw dv : ℕ) :
    (t.addStats dw dv).nb_wins = t.nb_wins + dw := by
  cases t; rfl

theorem setChild_self (t : Tree) (i : Fin 7) (c : Tree) (h : t.child i = some c) :
    t.setChild i (some c) = t := by
  cases t; rcases i with ⟨iv, hi⟩
  interval_cases iv <;> (simp [Tree.child] at h; simp [Tree.setChild, h])

theorem addStats_zero (t : Tree) : t.addStats 0 0 = t := by
  cases t; simp [Tree.addStats]

theorem nodeCount_pos (t : Tree) : 1 ≤ t.nodeCount := by
  cases t; simp [Tree.nodeCount, optCount]; omega

theorem child_nodeCount_le (t : Tree) (i : Fin 7) (c : Tree) (h : t.child i = some c) :
    c.nodeCount ≤ t.nodeCount := by
  cases t
  rcases i with ⟨iv, hi⟩
  unfold Tree.nodeCount
  interval_cases iv <;> simp [Tree.child] at h <;> subst h <;> simp [optCount] <;> omega

theorem childless_nodeCount (t : Tree) (h : t.childless) : t.nodeCount = 1 := by
  cases t
  have h0 := h ⟨0, by omega⟩
  have h1 := h ⟨1, by omega⟩
  have h2 := h ⟨2, by omega⟩
  have h3 := h ⟨3, by omega⟩
  have h4 := h ⟨4, by omega⟩
  have h5 := h ⟨5, by omega⟩
  have h6 := h ⟨6, by omega⟩
  simp [Tree.child] at h0 h1 h2 h3 h4 h5 h6
  simp [Tree.nodeCount, optCount, h0, h1, h2, h3, h4, h5, h6]

theorem childless_mk (s : Game) (w v : ℕ) :
    (Tree.node s w v none none none none none none none).childless := by
  intro i; rcases i with ⟨iv, hi⟩
  interval_cases iv <;> rfl

theorem childless_is_leaf (t : Tree) (h : t.childless) : is_leaf t = true := by
  have hall : ((List.finRange 7).all fun i => (t.child i).isNone) = true := by
    rw [List.all_eq_true]
    intro i _
    rw [h i]; rfl
  rw [is_leaf, hall, Bool.or_true]

theorem selPath_childless (pick : Tree → Fin 7) (fuel : ℕ) (t : Tree) (h : t.childless) :
    selPath pick fuel t = [] := by
  cases fuel with
  | zero => rfl
  | succ n => simp [selPath, childless_is_leaf t h]

theorem foldl_mem_invariant {α β : Type} (f : α → β → α) (P : α → Prop) :
    ∀ (l : List β) (init : α), P init → (∀ acc b, b ∈ l → P acc → P (f acc b)) →
      P (l.foldl f init) := by
  intro l
  induction l with
  | nil => intro init h _; simpa using h
  | cons a l ih =>
      intro init h hstep
      simp only [List.foldl_cons]
      exact ih (f init a) (hstep init a (by simp) h)
        (fun acc b hb hacc => hstep acc b (by simp [hb]) hacc)

theorem winner_le_two (g : Game) : winner g ≤ 2 := by
  unfold winner; split_ifs <;> norm_num [PLAYER_A, PLAYER_B, DRAW]

theorem play_ne_argError (g : Game) (p c : ℤ) (hp : p = PLAYER_A ∨ p = PLAYER_B)
    (h0 : 0 ≤ c) (h7 : c < 7) : (play g p c).1 ≠ ARG_ERROR := by
  have hp2 : ¬(p ≠ PLAYER_A ∧ p ≠ PLAYER_B) := by rcases hp with h | h <;> simp [h]
  have hcol : ¬(c < 0 ∨ 7 ≤ c) := by omega
  rw [play, if_neg hp2, dif_neg hcol]
  split_ifs <;> (try norm_num [ARG_ERROR]) <;> split_ifs <;> norm_num [ARG_ERROR]

theorem play_auto_ne_argError (g : Game) (c : ℤ) (h0 : 0 ≤ c) (h7 : c < 7) :
    (play_auto g c).1 ≠ ARG_ERROR := by
  unfold play_auto
  split_ifs
  · exact play_ne_argError g PLAYER_A c (Or.inl rfl) h0 h7
  · exact play_ne_argError g PLAYER_B c (Or.inr rfl) h0 h7

theorem tryFrom_ne_argError (g : Game) (first : ℕ) (hf : first < 7) :
    (tryFrom g first).1 ≠ ARG_ERROR := by
  unfold tryFrom
  apply foldl_mem_invariant _ (fun acc : ℤ × Game => acc.1 ≠ ARG_ERROR)
  · exact play_auto_ne_argError g _ (by positivity) (by exact_mod_cast hf)
  · intro acc n _ hacc
    dsimp only
    split_ifs
    · exact play_auto_ne_argError acc.2 _ (by positivity)
        (by exact_mod_cast Nat.mod_lt _ (by norm_num))
    · exact hacc

theorem playoutRun_ne_argError (g : Game) (rand : List ℕ) :
    (playoutRun g rand).1 ≠ ARG_ERROR := by
  induction rand generalizing g with
  | nil => norm_num [playoutRun, ARG_ERROR]
  | cons r rest ih =>
      simp only [playoutRun]
      split_ifs
      · exact ih _
      · exact tryFrom_ne_argError g (r % 7) (Nat.mod_lt _ (by norm_num))

theorem MTCS_simulation_run_ok (pa : ℤ) (rand : List ℕ) (s : Game) :
    (MTCS_simulation_run pa rand (some s)).1 ≠ MEMERROR ∧
    (MTCS_simulation_run pa rand (some s)).1 ≠ -1 := by
  have hge := winner_ge_neg_one s
  have hle := winner_le_two s
  have hres := playoutRun_ne_argError s rand
  have hw2 := winner_ge_neg_one (playoutRun s rand).2.1
  simp only [MTCS_simulation_run]
  split_ifs <;> simp_all [MEMERROR, ARG_ERROR, DRAW] <;> omega

theorem mkNodeSim_some (pa : ℤ) (rand : List ℕ) (s : Game) :
    ∃ (w : ℕ) (rand' : List ℕ),
      mkNodeSim pa rand (some s)
        = (some (Tree.node s w 1 none none none none none none none), rand') := by
  obtain ⟨hm, h1⟩ := MTCS_simulation_run_ok pa rand s
  refine ⟨(MTCS_simulation_run pa rand (some s)).1.toNat,
    (MTCS_simulation_run pa rand (some s)).2, ?_⟩
  simp only [mkNodeSim]
  rw [if_neg hm, if_neg h1]

theorem winner_nonneg_of_flag (g : Game)
    (h : g.gridA.testBit 61 = true ∨ g.gridB.testBit 61 = true) : 0 ≤ winner g := by
  unfold winner
  split_ifs <;> simp_all [PLAYER_A, PLAYER_B]

theorem play_win_winner_nonneg (g : Game) (p c : ℤ) (h1 : (play g p c).1 = 1) :
    0 ≤ winner (play g p c).2 := by
  have hacc : 0 ≤ (play g p c).1 := by omega
  obtain ⟨hp, hw, cF, hc, hocc, hturn⟩ := play_accepted_facts g p c hacc
  rw [hc, play_eq_playStep g p cF hp hw hocc hturn] at h1 ⊢
  rcases hp with rfl | rfl
  · rw [playStep, if_pos (rfl : PLAYER_A = PLAYER_A), if_pos (rfl : PLAYER_A = PLAYER_A),
        if_pos (rfl : PLAYER_A = PLAYER_A)] at h1 ⊢
    by_cases hm : makes_new_connect4
        ⟨(g.gridA ||| 1 <<< (7 * g.cols_occupation cF + 6 - (cF : ℕ))) &&& NOT_TURN_BIT,
          (g.gridB ||| TURN_BIT),
          Function.update g.cols_occupation cF (g.cols_occupation cF + 1)⟩
        ((cF : ℕ) : ℤ)
        ((g.gridA ||| 1 <<< (7 * g.cols_occupation cF + 6 - (cF : ℕ))) &&& NOT_TURN_BIT) = true
    · rw [if_pos hm, if_pos (rfl : PLAYER_A = PLAYER_A)]
      exact winner_nonneg_of_flag _ (Or.inl (lor_win_testBit_61 _))
    · rw [if_neg hm] at h1
      split_ifs at h1 <;> norm_num at h1
  · rw [playStep, if_neg (by decide : ¬ (PLAYER_B = PLAYER_A)),
        if_neg (by decide : ¬ (PLAYER_B = PLAYER_A)),
        if_neg (by decide : ¬ (PLAYER_B = PLAYER_A))] at h1 ⊢
    by_cases hm : makes_new_connect4
        ⟨(g.gridA ||| TURN_BIT),
          (g.gridB ||| 1 <<< (7 * g.cols_occupation cF + 6 - (cF : ℕ))) &&& NOT_TURN_BIT,
          Function.update g.cols_occupation cF (g.cols_occupation cF + 1)⟩
        ((cF : ℕ) : ℤ)
        ((g.gridB ||| 1 <<< (7 * g.cols_occupation cF + 6 - (cF : ℕ))) &&& NOT_TURN_BIT) = true
    · rw [if_pos hm, if_neg (by decide : ¬ (PLAYER_B = PLAYER_A))]
      exact winner_nonneg_of_flag _ (Or.inr (lor_win_testBit_61 _))
    · rw [if_neg hm] at h1
      split_ifs at h1 <;> norm_num at h1

theorem play_auto_win_winner_nonneg (g : Game) (c : ℤ) (h1 : (play_auto g c).1 = 1) :
    0 ≤ winner (play_auto g c).2 := by
  unfold play_auto at h1 ⊢
  split_ifs at h1 ⊢ <;> exact play_win_winner_nonneg g _ c h1

theorem play_auto_finished (g : Game) (c : ℤ) (hterm : 0 ≤ winner g) :
    (play_auto g c).1 < 0 := by
  unfold play_auto
  split_ifs <;> exact play_finished_rejects g hterm _ c

theorem play_copy_auto_some (g : Game) (c : ℤ) (s : Game)
    (h : play_copy_auto g c = some s) :
    0 ≤ (play_auto g c).1 ∧ s = (play_auto g c).2 := by
  simp only [play_copy_auto] at h
  split_ifs at h with hlt
  all_goals injection h with h
  all_goals exact ⟨by omega, h.symm⟩

theorem childless_of_terminal (t : Tree) (hco : TreeCoherent t)
    (hterm : 0 ≤ winner t.state) : t.childless := by
  intro i
  cases hc : t.child i with
  | none => rfl
  | some c =>
      have hacc := hco.accept i c hc
      have := play_auto_finished t.state ((i : ℕ) : ℤ) hterm
      omega

theorem treeCoherent_of_childless (t : Tree) (h : t.childless) : TreeCoherent t := by
  refine TreeCoherent.mk ?_ ?_ ?_ <;> intro i c hc <;> rw [h i] at hc <;>
    exact absurd hc (by simp)

theorem treeCoherent_setChild (t : Tree) (i : Fin 7) (v : Tree)
    (hco : TreeCoherent t)
    (hacc : 0 ≤ (play_auto t.state ((i : ℕ) : ℤ)).1)
    (hst : v.state = (play_auto t.state ((i : ℕ) : ℤ)).2)
    (hvco : TreeCoherent v) : TreeCoherent (t.setChild i (some v)) := by
  have key : ∀ (j : Fin 7) (c : Tree), (t.setChild i (some v)).child j = some c →
      0 ≤ (play_auto (t.setChild i (some v)).state ((j : ℕ) : ℤ)).1 ∧
      c.state = (play_auto (t.setChild i (some v)).state ((j : ℕ) : ℤ)).2 ∧
      TreeCoherent c := by
    intro j c hc
    rw [child_setChild] at hc
    rw [state_setChild]
    by_cases hji : j = i
    · rw [if_pos hji] at hc
      injection hc with h
      subst h
      subst hji
      exact ⟨hacc, hst, hvco⟩
    · rw [if_neg hji] at hc
      exact ⟨hco.accept j c hc, hco.childState j c hc, hco.childCoherent j c hc⟩
  exact TreeCoherent.mk (fun j c hc => (key j c hc).1) (fun j c hc => (key j c hc).2.1)
    (fun j c hc => (key j c hc).2.2)

theorem treeCoherent_addStats (t : Tree) (dw dv : ℕ) (h : TreeCoherent t) :
    TreeCoherent (t.addStats dw dv) := by
  refine TreeCoherent.mk ?_ ?_ ?_ <;> intro j c hc <;> rw [child_addStats] at hc
  · rw [state_addStats]; exact h.accept j c hc
  · rw [state_addStats]; exact h.childState j c hc
  · exact h.childCoherent j c hc

theorem addAlong_facts (dw dv : ℕ) : ∀ (path : List (Fin 7)) (t : Tree),
    (addAlong dw dv t path).state = t.state ∧
    (TreeCoherent t → TreeCoherent (addAlong dw dv t path)) ∧
    (∀ j : Fin 7, ((addAlong dw dv t path).child j).isSome = (t.child j).isSome) := by
  intro path
  induction path with
  | nil =>
      intro t
      refine ⟨state_addStats t dw dv, treeCoherent_addStats t dw dv, ?_⟩
      intro j
      simp only [addAlong, child_addStats]
  | cons i rest ih =>
      intro t
      cases hch : t.child i with
      | none =>
          refine ⟨?_, ?_, ?_⟩ <;> simp [addAlong, hch]
      | some ch =>
          obtain ⟨ihs, ihc, ihp⟩ := ih ch
          refine ⟨?_, ?_, ?_⟩
          · simp only [addAlong, hch, state_addStats, state_setChild]
          · intro hco
            simp only [addAlong, hch]
            refine treeCoherent_addStats _ dw dv ?_
            refine treeCoherent_setChild t i _ hco (hco.accept i ch hch) ?_
              (ihc (hco.childCoherent i ch hch))
            rw [ihs]
            exact hco.childState i ch hch
          · intro j
            simp only [addAlong, hch, child_addStats, child_setChild]
            by_cases hji : j = i
            · rw [if_pos hji, hji, hch]; rfl
            · rw [if_neg hji]

theorem ensurePath_facts (pa : ℤ) : ∀ (path : List (Fin 7)) (t : Tree) (rand : List ℕ),
    (ensurePath pa t path rand).1.state = t.state ∧
    (TreeCoherent t → TreeCoherent (ensurePath pa t path rand).1) ∧
    (∀ j : Fin 7, (t.child j).isSome = true →
      ((ensurePath pa t path rand).1.child j).isSome = true) := by
  intro path
  induction path with
  | nil => intro t rand; exact ⟨rfl, fun h => h, fun j hj => hj⟩
  | cons idx rest ih =>
      intro t rand
      cases hch : t.child idx with
      | some ch =>
          obtain ⟨ihs, ihc, ihp⟩ := ih ch rand
          refine ⟨?_, ?_, ?_⟩
          · simp only [ensurePath, hch, state_addStats, state_setChild]
          · intro hco
            simp only [ensurePath, hch]
            refine treeCoherent_addStats _ _ _ ?_
            refine treeCoherent_setChild t idx _ hco (hco.accept idx ch hch) ?_
              (ihc (hco.childCoherent idx ch hch))
            rw [ihs]
            exact hco.childState idx ch hch
          · intro j hj
            simp only [ensurePath, hch, child_addStats, child_setChild]
            by_cases hji : j = idx
            · rw [if_pos hji]; rfl
            · rw [if_neg hji]; exact hj
      | none =>
          cases hpc : play_copy_auto t.state ((idx : ℕ) : ℤ) with
          | none =>
              have hmk : mkNodeSim pa rand (play_copy_auto t.state ((idx : ℕ) : ℤ))
                  = (none, rand) := by rw [hpc]; rfl
              refine ⟨?_, ?_, ?_⟩ <;> simp only [ensurePath, hch, hmk]
              · exact fun h => h
              · exact fun j hj => hj
          | some s2 =>
              obtain ⟨hpa2, hs2⟩ := play_copy_auto_some t.state ((idx : ℕ) : ℤ) s2 hpc
              obtain ⟨w, rand', hmk⟩ := mkNodeSim_some pa rand s2
              rw [← hpc] at hmk
              obtain ⟨ihs, ihc, ihp⟩ :=
                ih (Tree.node s2 w 1 none none none none none none none) rand'
              refine ⟨?_, ?_, ?_⟩
              · simp only [ensurePath, hch, hmk, state_addStats, state_setChild]
              · intro hco
                simp only [ensurePath, hch, hmk]
                refine treeCoherent_addStats _ _ _ ?_
                refine treeCoherent_setChild t idx _ hco hpa2 ?_
                  (ihc (treeCoherent_of_childless _ (childless_mk s2 w 1)))
                rw [ihs]
                exact hs2 ▸ (rfl : (Tree.node s2 w 1 none none none none none
                  none none).state = s2)
              · intro j hj
                simp only [ensurePath, hch, hmk, child_addStats, child_setChild]
                by_cases hji : j = idx
                · rw [if_pos hji]; rfl
                · rw [if_neg hji]; exact hj

theorem recombineStep_preserves (pa : ℤ) (y c : Fin 7) (t0 : Tree)
    (acc2 : Tree × List ℕ) (x : Fin 7)
    (h : TreeCoherent acc2.1 ∧ acc2.1.state = t0.state) :
    TreeCoherent (recombineStep pa y c acc2 x).1 ∧
      (recombineStep pa y c acc2 x).1.state = t0.state ∧
      (∀ j : Fin 7, (acc2.1.child j).isSome = true →
        ((recombineStep pa y c acc2 x).1.child j).isSome = true) := by
  obtain ⟨hco, hst⟩ := h
  unfold recombineStep
  split_ifs with hxy
  · exact ⟨hco, hst, fun j hj => hj⟩
  · cases hgcc : (acc2.1.child y).bind (fun ty => (ty.child x).bind fun tx => tx.child c) with
    | none => simp only [hgcc]; exact ⟨hco, hst, fun j hj => hj⟩
    | some gcc =>
        simp only [hgcc]
        obtain ⟨hes, hec, hep⟩ := ensurePath_facts pa [c, x, y] acc2.1 acc2.2
        split_ifs with hok
        · obtain ⟨has, hac, hap⟩ := addAlong_facts gcc.nb_wins gcc.nb_visits [c, x, y]
            (ensurePath pa acc2.1 [c, x, y] acc2.2).1
          refine ⟨hac (hec hco), by rw [has, hes, hst], ?_⟩
          intro j hj
          rw [hap j]
          exact hep j hj
        · exact ⟨hec hco, by rw [hes, hst], hep⟩

theorem recombineRow_preserves (pa : ℤ) (c : Fin 7) (t0 : Tree)
    (acc : Tree × List ℕ) (y : Fin 7)
    (h : TreeCoherent acc.1 ∧ acc.1.state = t0.state) :
    TreeCoherent (recombineRow pa c acc y).1 ∧
      (recombineRow pa c acc y).1.state = t0.state ∧
      (∀ j : Fin 7, (acc.1.child j).isSome = true →
        ((recombineRow pa c acc y).1.child j).isSome = true) := by
  unfold recombineRow
  split_ifs with hyc
  · exact ⟨h.1, h.2, fun j hj => hj⟩
  · cases hcy : acc.1.child y with
    | none => simp only [hcy]; exact ⟨h.1, h.2, fun j hj => hj⟩
    | some ty =>
        simp only [hcy]
        have hstep : ∀ (a : Tree × List ℕ) (x : Fin 7), x ∈ List.finRange 7 →
            ((TreeCoherent a.1 ∧ a.1.state = t0.state) ∧
              ∀ j : Fin 7, (acc.1.child j).isSome = true → (a.1.child j).isSome = true) →
            ((TreeCoherent (recombineStep pa y c a x).1 ∧
                (recombineStep pa y c a x).1.state = t0.state) ∧
              ∀ j : Fin 7, (acc.1.child j).isSome = true →
                ((recombineStep pa y c a x).1.child j).isSome = true) := by
          intro a x _ ha
          obtain ⟨hs1, hs2, hs3⟩ := recombineStep_preserves pa y c t0 a x ha.1
          exact ⟨⟨hs1, hs2⟩, fun j hj => hs3 j (ha.2 j hj)⟩
        have hall := foldl_mem_invariant (recombineStep pa y c)
          (fun a => (TreeCoherent a.1 ∧ a.1.state = t0.state) ∧
            ∀ j : Fin 7, (acc.1.child j).isSome = true → (a.1.child j).isSome = true)
          (List.finRange 7) acc ⟨h, fun j hj => hj⟩ hstep
        exact ⟨hall.1.1, hall.1.2, hall.2⟩

theorem progress_in_tree_child (pa : ℤ) (t : Tree) (c : Fin 7) (rand : List ℕ)
    (hco : TreeCoherent t) (tc : Tree) (hchild : t.child c = some tc) :
    ∃ (t1 : Tree) (rand1 : List ℕ),
      progress_in_tree pa t c rand = (some t1, rand1) ∧
      t1.state = (play_auto t.state ((c : ℕ) : ℤ)).2 ∧ TreeCoherent t1 := by
  have hstep : ∀ (a : Tree × List ℕ) (y : Fin 7), y ∈ List.finRange 7 →
      ((TreeCoherent a.1 ∧ a.1.state = t.state) ∧
        ∀ j : Fin 7, (t.child j).isSome = true → (a.1.child j).isSome = true) →
      ((TreeCoherent (recombineRow pa c a y).1 ∧
          (recombineRow pa c a y).1.state = t.state) ∧
        ∀ j : Fin 7, (t.child j).isSome = true →
          ((recombineRow pa c a y).1.child j).isSome = true) := by
    intro a y _ ha
    obtain ⟨hs1, hs2, hs3⟩ := recombineRow_preserves pa c t a y ha.1
    exact ⟨⟨hs1, hs2⟩, fun j hj => hs3 j (ha.2 j hj)⟩
  have hall := foldl_mem_invariant (recombineRow pa c)
    (fun a => (TreeCoherent a.1 ∧ a.1.state = t.state) ∧
      ∀ j : Fin 7, (t.child j).isSome = true → (a.1.child j).isSome = true)
    (List.finRange 7) (t, rand) ⟨⟨hco, rfl⟩, fun j hj => hj⟩ hstep
  obtain ⟨⟨hco1, hst1⟩, hpres⟩ := hall
  have hsomec := hpres c (by rw [hchild]; rfl)
  obtain ⟨sel, hsel⟩ := Option.isSome_iff_exists.mp hsomec
  refine ⟨sel, ((List.finRange 7).foldl (recombineRow pa c) (t, rand)).2, ?_, ?_, ?_⟩
  · simp only [progress_in_tree]
    rw [hsel]
  · rw [hco1.childState c sel hsel, hst1]
  · exact hco1.childCoherent c sel hsel

theorem progress_in_tree_winning (pa : ℤ) (t : Tree) (c : Fin 7) (rand : List ℕ)
    (hco : TreeCoherent t) (hwin : (play_auto t.state ((c : ℕ) : ℤ)).1 = 1) :
    ∃ (t2 : Tree) (rand2 : List ℕ),
      progress_in_tree pa t c rand = (some t2, rand2) ∧
      t2.childless ∧ 0 ≤ winner t2.state ∧
      t2.state = (play_auto t.state ((c : ℕ) : ℤ)).2 := by
  have hstep : ∀ (a : Tree × List ℕ) (y : Fin 7), y ∈ List.finRange 7 →
      (TreeCoherent a.1 ∧ a.1.state = t.state) →
      (TreeCoherent (recombineRow pa c a y).1 ∧
        (recombineRow pa c a y).1.state = t.state) := by
    intro a y _ ha
    obtain ⟨hs1, hs2, _⟩ := recombineRow_preserves pa c t a y ha
    exact ⟨hs1, hs2⟩
  have hall := foldl_mem_invariant (recombineRow pa c)
    (fun a => TreeCoherent a.1 ∧ a.1.state = t.state)
    (List.finRange 7) (t, rand) ⟨hco, rfl⟩ hstep
  obtain ⟨hco1, hst1⟩ := hall
  have hwnn : 0 ≤ winner (play_auto t.state ((c : ℕ) : ℤ)).2 :=
    play_auto_win_winner_nonneg _ _ hwin
  cases hselc : ((List.finRange 7).foldl (recombineRow pa c) (t, rand)).1.child c with
  | some sel =>
      have hst : sel.state = (play_auto t.state ((c : ℕ) : ℤ)).2 := by
        rw [hco1.childState c sel hselc, hst1]
      refine ⟨sel, ((List.finRange 7).foldl (recombineRow pa c) (t, rand)).2, ?_, ?_, ?_, hst⟩
      · simp only [progress_in_tree]
        rw [hselc]
      · refine childless_of_terminal sel (hco1.childCoherent c sel hselc) ?_
        rw [hst]
        exact hwnn
      · rw [hst]
        exact hwnn
  | none =>
      have hpc : play_copy_auto
          ((List.finRange 7).foldl (recombineRow pa c) (t, rand)).1.state ((c : ℕ) : ℤ)
          = some (play_auto t.state ((c : ℕ) : ℤ)).2 := by
        rw [hst1]
        simp only [play_copy_auto]
        rw [if_neg (by omega)]
      obtain ⟨w, rand', hmk⟩ :=
        mkNodeSim_some pa ((List.finRange 7).foldl (recombineRow pa c) (t, rand)).2
          ((play_auto t.state ((c : ℕ) : ℤ)).2)
      refine ⟨Tree.node (play_auto t.state ((c : ℕ) : ℤ)).2 w 1
          none none none none none none none, rand', ?_, childless_mk _ _ _, ?_, rfl⟩
      · simp only [progress_in_tree]
        rw [hselc, hpc, hmk]
      · exact hwnn

theorem expandNode_terminal (pa : ℤ) (t : Tree) (rand : List ℕ)
    (hcl : t.childless) (hterm : 0 ≤ winner t.state) :
    (expandNode pa t rand).1.childless ∧ (expandNode pa t rand).1.state = t.state := by
  have hstep : ∀ (a : Tree × List ℕ) (col : Fin 7), col ∈ List.finRange 7 →
      (a.1.childless ∧ a.1.state = t.state) →
      ((let r := mkNodeSim pa a.2 (play_copy_auto a.1.state ((col : ℕ) : ℤ))
        (a.1.setChild col r.1, r.2) : Tree × List ℕ).1.childless ∧
        (let r := mkNodeSim pa a.2 (play_copy_auto a.1.state ((col : ℕ) : ℤ))
        (a.1.setChild col r.1, r.2) : Tree × List ℕ).1.state = t.state) := by
    intro a col _ ha
    have hpc : play_copy_auto a.1.state ((col : ℕ) : ℤ) = none := by
      simp only [play_copy_auto]
      rw [if_pos]
      rw [ha.2]
      exact play_auto_finished t.state _ hterm
    rw [hpc]
    constructor
    · intro j
      rw [child_setChild]
      split_ifs with hji
      · rfl
      · exact ha.1 j
    · rw [state_setChild]
      exact ha.2
  have hall := foldl_mem_invariant
    (fun (acc : Tree × List ℕ) (col : Fin 7) =>
      let r := mkNodeSim pa acc.2 (play_copy_auto acc.1.state ((col : ℕ) : ℤ))
      (acc.1.setChild col r.1, r.2))
    (fun a => a.1.childless ∧ a.1.state = t.state)
    (List.finRange 7) (t, rand) ⟨hcl, rfl⟩ hstep
  exact hall

theorem iterAt_nil_terminal (pa : ℤ) (t : Tree) (rand : List ℕ)
    (hcl : t.childless) (hterm : 0 ≤ winner t.state) :
    (iterAt pa [] t rand).1.childless ∧ (iterAt pa [] t rand).1.state = t.state := by
  obtain ⟨h1, h2⟩ := expandNode_terminal pa t rand hcl hterm
  simp only [iterAt]
  constructor
  · intro j
    rw [child_addStats]
    exact h1 j
  · rw [state_addStats]
    exact h2

theorem MCTS_loop_terminal (pa : ℤ) (pick : Tree → Fin 7) (maxv : ℕ) :
    ∀ (fuel : ℕ) (t : Tree) (rand : List ℕ), t.childless → 0 ≤ winner t.state →
      (MCTS_loop pa pick maxv fuel t rand).1.childless ∧
      (MCTS_loop pa pick maxv fuel t rand).1.state = t.state := by
  intro fuel
  induction fuel with
  | zero => intro t rand hcl _; exact ⟨hcl, rfl⟩
  | succ n ih =>
      intro t rand hcl hterm
      simp only [MCTS_loop]
      split_ifs with hv
      · rw [selPath_childless pick _ t hcl]
        obtain ⟨h1, h2⟩ := iterAt_nil_terminal pa t rand hcl hterm
        obtain ⟨h3, h4⟩ := ih _ _ h1 (by rw [h2]; exact hterm)
        exact ⟨h3, by rw [h4, h2]⟩
      · exact ⟨hcl, rfl⟩

theorem MCTS_terminal_nodeCount (pa : ℤ) (pick : Tree → Fin 7) (maxv : ℕ)
    (t : Tree) (rand : List ℕ) (hcl : t.childless) (hterm : 0 ≤ winner t.state) :
    (MCTS pa pick maxv t rand).2.1.nodeCount = 1 := by
  obtain ⟨h1, _⟩ := MCTS_loop_terminal pa pick maxv maxv t rand hcl hterm
  simp only [MCTS]
  exact childless_nodeCount _ h1

theorem can_make_eq_least (g : Game) (w : Fin 7)
    (hw : play_auto_without_update g ((w : ℕ) : ℤ) = 1)
    (hmin : ∀ v : Fin 7, v < w → play_auto_without_update g ((v : ℕ) : ℤ) ≠ 1) :
    can_make_connect4_now g = ((w : ℕ) : ℤ) := by
  unfold can_make_connect4_now
  rw [show (List.finRange 7) = [0, 1, 2, 3, 4, 5, 6] from rfl]
  rcases w with ⟨wv, hwv⟩
  interval_cases wv
  · rw [show (⟨0, hwv⟩ : Fin 7) = 0 from rfl] at hw hmin ⊢
    clear hmin
    simp_all [List.foldl]
  · rw [show (⟨1, hwv⟩ : Fin 7) = 1 from rfl] at hw hmin ⊢
    have n0 := hmin 0 (by decide)
    clear hmin
    simp_all [List.foldl]
  · rw [show (⟨2, hwv⟩ : Fin 7) = 2 from rfl] at hw hmin ⊢
    have n0 := hmin 0 (by decide)
    have n1 := hmin 1 (by decide)
    clear hmin
    simp_all [List.foldl]
  · rw [show (⟨3, hwv⟩ : Fin 7) = 3 from rfl] at hw hmin ⊢
    have n0 := hmin 0 (by decide)
    have n1 := hmin 1 (by decide)
    have n2 := hmin 2 (by decide)
    clear hmin
    simp_all [List.foldl]
  · rw [show (⟨4, hwv⟩ : Fin 7) = 4 from rfl] at hw hmin ⊢
    have n0 := hmin 0 (by decide)
    have n1 := hmin 1 (by decide)
    have n2 := hmin 2 (by decide)
    have n3 := hmin 3 (by decide)
    clear hmin
    simp_all [List.foldl]
  · rw [show (⟨5, hwv⟩ : Fin 7) = 5 from rfl] at hw hmin ⊢
    have n0 := hmin 0 (by decide)
    have n1 := hmin 1 (by decide)
    have n2 := hmin 2 (by decide)
    have n3 := hmin 3 (by decide)
    have n4 := hmin 4 (by decide)
    clear hmin
    simp_all [List.foldl]
  · rw [show (⟨6, hwv⟩ : Fin 7) = 6 from rfl] at hw hmin ⊢
    have n0 := hmin 0 (by decide)
    have n1 := hmin 1 (by decide)
    have n2 := hmin 2 (by decide)
    have n3 := hmin 3 (by decide)
    have n4 := hmin 4 (by decide)
    have n5 := hmin 5 (by decide)
    clear hmin
    simp_all [List.foldl]

theorem bestStep_preserves (t : Tree) (acc : ℕ × ℤ) (col : Fin 7)
    (h : 1 ≤ acc.1 ∧ 0 ≤ acc.2 ∧ acc.2 < 7) :
    1 ≤ (bestStep t acc col).1 ∧ 0 ≤ (bestStep t acc col).2 ∧
      (bestStep t acc col).2 < 7 := by
  obtain ⟨h1, h2, h3⟩ := h
  have hc7 : ((col : ℕ) : ℤ) < 7 := by exact_mod_cast col.isLt
  have hc0 : 0 ≤ ((col : ℕ) : ℤ) := by positivity
  unfold bestStep
  cases hch : t.child col with
  | none => exact ⟨h1, h2, h3⟩
  | some tested =>
      simp only [hch]
      rw [dif_pos ⟨h2, h3⟩]
      split_ifs with hcond
      · simp only [Bool.or_eq_true, Bool.and_eq_true, decide_eq_true_eq] at hcond
        refine ⟨?_, hc0, hc7⟩
        rcases hcond with hmore | ⟨hsame, _⟩ <;> omega
      · exact ⟨h1, h2, h3⟩

theorem MCTS_best_mem (t : Tree) (n : Tree) (hch : t.child 0 = some n)
    (hv : n.nb_visits = 1) : 0 ≤ MCTS_best t ∧ MCTS_best t < 7 := by
  unfold MCTS_best
  rw [show (List.finRange 7) = 0 :: [1, 2, 3, 4, 5, 6] from rfl, List.foldl_cons]
  have h0 : bestStep t (0, -1) 0 = (n.nb_visits, (((0 : Fin 7) : ℕ) : ℤ)) := by
    simp only [bestStep, hch, hv]
    norm_num
  rw [h0, hv]
  have hall := foldl_mem_invariant (bestStep t)
    (fun a => 1 ≤ a.1 ∧ 0 ≤ a.2 ∧ a.2 < 7) [1, 2, 3, 4, 5, 6]
    (1, (((0 : Fin 7) : ℕ) : ℤ)) ⟨le_refl 1, by decide, by decide⟩
    (fun a b _ ha => bestStep_preserves t a b ha)
  exact ⟨hall.2.1, hall.2.2⟩

theorem play_copy_auto_of_nonneg (g : Game) (c : ℤ) (h : 0 ≤ (play_auto g c).1) :
    play_copy_auto g c = some (play_auto g c).2 := by
  simp only [play_copy_auto]
  rw [if_neg (by omega)]

set_option maxRecDepth 40000 in
theorem initChildStep_zero (pa : ℤ) (acc : Tree × List ℕ)
    (hv : 1 ≤ acc.1.nb_visits) :
    1 ≤ (initChildStep pa acc 0).1.nb_visits ∧
      ∃ n, (initChildStep pa acc 0).1.child 0 = some n ∧ n.nb_visits = 1 := by
  have hred : 0 ≤ (play_auto game_init (((0 : Fin 7) : ℕ) : ℤ)).1 := by decide
  have hpc := play_copy_auto_of_nonneg game_init _ hred
  obtain ⟨w, rand', hmk⟩ :=
    mkNodeSim_some pa acc.2 (play_auto game_init (((0 : Fin 7) : ℕ) : ℤ)).2
  simp only [initChildStep, hpc, hmk]
  refine ⟨?_, Tree.node (play_auto game_init (((0 : Fin 7) : ℕ) : ℤ)).2 w 1
      none none none none none none none, ?_, rfl⟩
  · rw [visits_addStats, visits_setChild]
    omega
  · rw [child_addStats, child_setChild, if_pos rfl]

theorem initChildStep_preserves (pa : ℤ) (acc : Tree × List ℕ) (col : Fin 7)
    (hcol : col ≠ 0)
    (h : 1 ≤ acc.1.nb_visits ∧ ∃ n, acc.1.child 0 = some n ∧ n.nb_visits = 1) :
    1 ≤ (initChildStep pa acc col).1.nb_visits ∧
      ∃ n, (initChildStep pa acc col).1.child 0 = some n ∧ n.nb_visits = 1 := by
  obtain ⟨hv, n, hn, hnv⟩ := h
  cases hpc : play_copy_auto game_init ((col : ℕ) : ℤ) with
  | none =>
      simp only [initChildStep, hpc, mkNodeSim]
      exact ⟨hv, n, hn, hnv⟩
  | some s =>
      obtain ⟨w, rand', hmk⟩ := mkNodeSim_some pa acc.2 s
      rw [← hpc] at hmk
      simp only [initChildStep, hmk]
      refine ⟨?_, n, ?_, hnv⟩
      · rw [visits_addStats, visits_setChild]
        omega
      · rw [child_addStats, child_setChild, if_neg (fun he => hcol he.symm)]
        exact hn

set_option maxHeartbeats 2000000 in
theorem init_after_root_in_range (pick : Tree → Fin 7) (root0 : Tree) (rand1 : List ℕ)
    (hv0 : root0.nb_visits = 1) :
    0 ≤ (init_after_root PLAYER_A pick 8 root0 rand1).1 ∧
    (init_after_root PLAYER_A pick 8 root0 rand1).1 < 7 := by
  have hfold : (List.finRange 7).foldl (initChildStep PLAYER_A) (root0, rand1)
      = List.foldl (initChildStep PLAYER_A)
          (initChildStep PLAYER_A (root0, rand1) 0) [1, 2, 3, 4, 5, 6] := by
    rw [show (List.finRange 7) = 0 :: [1, 2, 3, 4, 5, 6] from rfl, List.foldl_cons]
  have h0 := initChildStep_zero PLAYER_A (root0, rand1) (by rw [hv0])
  have hall := foldl_mem_invariant (initChildStep PLAYER_A)
    (fun a => 1 ≤ a.1.nb_visits ∧ ∃ n, a.1.child 0 = some n ∧ n.nb_visits = 1)
    [1, 2, 3, 4, 5, 6] (initChildStep PLAYER_A (root0, rand1) 0) h0
    (fun a b hb ha => initChildStep_preserves PLAYER_A a b (by fin_cases hb <;> decide) ha)
  rw [← hfold] at hall
  obtain ⟨hv, n, hn, hnv⟩ := hall
  have hloop : MCTS_loop PLAYER_A pick 8 8
      ((List.finRange 7).foldl (initChildStep PLAYER_A) (root0, rand1)).1
      ((List.finRange 7).foldl (initChildStep PLAYER_A) (root0, rand1)).2
      = (((List.finRange 7).foldl (initChildStep PLAYER_A) (root0, rand1)).1,
        (((List.finRange 7).foldl (initChildStep PLAYER_A) (root0, rand1)).2, 0)) := by
    rw [show (8 : ℕ) = 7 + 1 from rfl]
    simp only [MCTS_loop]
    rw [if_neg (by omega)]
  have hbest := MCTS_best_mem
    ((List.finRange 7).foldl (initChildStep PLAYER_A) (root0, rand1)).1 n hn hnv
  have hm : 0 ≤ (MCTS PLAYER_A pick 8
        ((List.finRange 7).foldl (initChildStep PLAYER_A) (root0, rand1)).1
        ((List.finRange 7).foldl (initChildStep PLAYER_A) (root0, rand1)).2).1 ∧
      (MCTS PLAYER_A pick 8
        ((List.finRange 7).foldl (initChildStep PLAYER_A) (root0, rand1)).1
        ((List.finRange 7).foldl (initChildStep PLAYER_A) (root0, rand1)).2).1 < 7 := by
    simp only [MCTS, hloop]
    rw [if_neg (by omega)]
    exact hbest
  rw [init_after_root, if_pos rfl]
  dsimp only
  split_ifs <;> exact hm

set_option maxRecDepth 40000 in
/-- C8: for every budget and searcher, the MCTS search loop runs at most
`fuel` iterations for any fuel allowance — MCTS invokes it with
`fuel = MAX_VISITS`, the iteration safety cap, so the search always
terminates within the cap — and init_MCTS with the engine moving first
(PLAYER_A) and the accepted budget max_visits = 8 returns a column in
[0, 7), for every selection oracle and random stream. -/
theorem MCTS_loop_capped_and_init_in_range :
    (∀ (playing_as : ℤ) (pick : Tree → Fin 7) (maxv fuel : ℕ) (t : Tree) (rand : List ℕ),
        (MCTS_loop playing_as pick maxv fuel t rand).2.2 ≤ fuel) ∧
    (∀ (pick : Tree → Fin 7) (rand : List ℕ),
        0 ≤ (init_MCTS PLAYER_A pick 8 rand).1 ∧ (init_MCTS PLAYER_A pick 8 rand).1 < 7) := by
  constructor
  · intro pa pick maxv fuel
    induction fuel with
    | zero => intro t rand; simp [MCTS_loop]
    | succ m ih =>
        intro t rand
        simp only [MCTS_loop]
        split_ifs with hvlt
        · dsimp only
          have := ih (iterAt pa (selPath pick t.nodeCount t) t rand).1
            (iterAt pa (selPath pick t.nodeCount t) t rand).2.2
          omega
        · dsimp only
          omega
  · intro pick rand
    have hg : ¬((8 : ℕ) < 8 ∨ (PLAYER_A ≠ PLAYER_A ∧ PLAYER_A ≠ PLAYER_B)) := by norm_num
    obtain ⟨w0, rand1, hmk0⟩ := mkNodeSim_some PLAYER_A rand game_init
    rw [init_MCTS, if_neg hg, hmk0]
    dsimp only
    exact init_after_root_in_range pick _ rand1 rfl

/-- C6: whenever, after the opponent's submitted move (entering the tree
child `col` holding state tc.state), some column wins immediately for the
side to move — `w` the smallest such index — input_MCTS returns exactly
`w`, and the search tree it leaves behind is the single node of the played
winning continuation (nodeCount 1): the tactical check decides the move
and the subsequent search grows no tree beyond it. -/
theorem input_MCTS_immediate_win (playing_as : ℤ) (pick : Tree → Fin 7)
    (max_visits : ℕ) (t : Tree) (rand : List ℕ) (col : Fin 7) (tc : Tree)
    (hco : TreeCoherent t) (hchild : t.child col = some tc)
    (w : Fin 7)
    (hw : play_auto_without_update tc.state ((w : ℕ) : ℤ) = 1)
    (hmin : ∀ v : Fin 7, v < w → play_auto_without_update tc.state ((v : ℕ) : ℤ) ≠ 1) :
    (input_MCTS playing_as pick max_visits t ((col : ℕ) : ℤ) rand).1 = ((w : ℕ) : ℤ) ∧
    ∃ (t3 : Tree) (rand3 : List ℕ),
      (input_MCTS playing_as pick max_visits t ((col : ℕ) : ℤ) rand).2 = (some t3, rand3) ∧
      t3.nodeCount = 1 := by
  have htc : tc.state = (play_auto t.state ((col : ℕ) : ℤ)).2 := hco.childState col tc hchild
  obtain ⟨t1, rand1, hpr, hst1, hco1⟩ :=
    progress_in_tree_child playing_as t col rand hco tc hchild
  have hst1' : t1.state = tc.state := by rw [hst1, htc]
  have hwin1 : (play_auto t1.state ((w : ℕ) : ℤ)).1 = 1 := by rw [hst1']; exact hw
  have hcm : can_make_connect4_now t1.state = ((w : ℕ) : ℤ) := by
    apply can_make_eq_least
    · show (play_auto t1.state ((w : ℕ) : ℤ)).1 = 1
      exact hwin1
    · intro v hv
      show (play_auto t1.state ((v : ℕ) : ℤ)).1 ≠ 1
      rw [hst1']
      exact hmin v hv
  obtain ⟨t2, rand2, hpr2, hcl2, hterm2, _⟩ :=
    progress_in_tree_winning playing_as t1 w rand1 hco1 hwin1
  have hcol7 : ¬(((col : ℕ) : ℤ) < 0 ∨ 7 ≤ ((col : ℕ) : ℤ)) := by
    have := col.isLt
    omega
  have hwrange : (0 : ℤ) ≤ ((w : ℕ) : ℤ) ∧ ((w : ℕ) : ℤ) < 7 := by
    have := w.isLt
    omega
  rw [input_MCTS, dif_neg hcol7]
  dsimp only
  simp only [Int.toNat_natCast, Fin.eta]
  rw [if_neg (by simp [hchild])]
  simp only [hpr]
  dsimp only
  simp only [hcm]
  rw [dif_pos hwrange]
  simp only [Int.toNat_natCast, Fin.eta]
  simp only [hpr2]
  exact ⟨by first | rfl | trivial, (MCTS playing_as pick max_visits t2 rand2).2.1,
    (MCTS playing_as pick max_visits t2 rand2).2.2, by first | rfl | trivial,
    MCTS_terminal_nodeCount playing_as pick max_visits t2 rand2 hcl2 hterm2⟩

set_option maxRecDepth 40000 in
theorem cexRoot_coherent : TreeCoherent cexRoot := by
  have hclc : cexChild.childless := by
    intro i
    fin_cases i <;> rfl
  have key : ∀ (i : Fin 7) (c : Tree), cexRoot.child i = some c →
      0 ≤ (play_auto cexRoot.state ((i : ℕ) : ℤ)).1 ∧
      c.state = (play_auto cexRoot.state ((i : ℕ) : ℤ)).2 ∧ TreeCoherent c := by
    intro i c hc
    fin_cases i
    · exact Option.noConfusion hc
    · exact Option.noConfusion hc
    · exact Option.noConfusion hc
    · exact Option.noConfusion hc
    · exact Option.noConfusion hc
    · exact Option.noConfusion hc
    · injection hc with h
      subst h
      exact ⟨by decide, rfl, treeCoherent_of_childless _ hclc⟩
  exact TreeCoherent.mk (fun i c hc => (key i c hc).1) (fun i c hc => (key i c hc).2.1)
    (fun i c hc => (key i c hc).2.2)

set_option maxRecDepth 40000 in
/-- Witness for input_MCTS_immediate_win: at the two-node tree cexRoot,
after the opponent's move 6, the engine to move wins immediately at column
0 (the least index, trivially), and input_MCTS returns 0 and leaves the
single-node tree of that winning continuation. -/
theorem input_MCTS_immediate_win_witness :
    cexRoot.child 6 = some cexChild ∧
    play_auto_without_update cexChild.state (((0 : Fin 7) : ℕ) : ℤ) = 1 ∧
    ((input_MCTS PLAYER_B (fun x => 0) 0 cexRoot (((6 : Fin 7) : ℕ) : ℤ) []).1
        = (((0 : Fin 7) : ℕ) : ℤ) ∧
      ∃ (t3 : Tree) (rand3 : List ℕ),
        (input_MCTS PLAYER_B (fun x => 0) 0 cexRoot (((6 : Fin 7) : ℕ) : ℤ) []).2
          = (some t3, rand3) ∧ t3.nodeCount = 1) :=
  ⟨rfl, by decide,
    input_MCTS_immediate_win PLAYER_B (fun x => 0) 0 cexRoot [] 6 cexChild
      cexRoot_coherent rfl 0 (by decide)
      (fun v hv => absurd hv (Fin.not_lt_zero v))⟩

end Connect4
